import Mathlib

/-!
# Verification of the SVG normalization engine (`src/svg.py`)

This file gives a shallow embedding of `cleanup_svg` from `src/svg.py` of
the typst-iso-7000-generator repository, together with theorems settling
the specification claims about it.

Modelling conventions:
* An lxml element tree is modelled by `Node`: an element carries its tag in
  Clark notation (`{namespace-uri}localname`, exactly the string form that
  `etree.QName` parses), an ordered attribute list, its `text`, its ordered
  children, and its `tail` text; a comment carries its content and `tail`.
* Python `str` values are Lean `String`s; all string algorithms work on the
  underlying `List Char` (`String.data`).
* Python `float` is modelled by exact rationals (`PyF`).  Parsing
  (`float(s)`) and formatting (`str(f)`) follow Python's grammar; the values
  arising in every verified scenario are exactly representable, where the
  model agrees with IEEE doubles.  `inf`/`nan` spellings and digit
  underscores are not modelled (never exercised by the code's inputs here).
* Serialization follows `etree.tostring(tree, xml_declaration=True,
  encoding="UTF-8", pretty_print=False)`: the XML declaration line, then the
  root element, elements self-closing when they have neither text nor
  children.  Namespace prefix declarations (`xmlns=...`) are not re-emitted
  by the model (after `cleanup_namespaces` only the used declarations remain
  in the real output); tags render by local name.  No claim depends on the
  rendered namespace declarations.
-/

namespace Iso7000

/-! ## Character and character-list utilities (Python string semantics) -/

/-- Python `str.strip()` whitespace class (ASCII part, which is all the
inputs here contain). -/
def isWS (c : Char) : Bool :=
  c == ' ' || c == '\t' || c == '\n' || c == '\r' || c == '\x0b' || c == '\x0c'

/-- Python `str.isdigit` for ASCII digits. -/
def isDig (c : Char) : Bool := '0' ≤ c && c ≤ '9'

/-- Drop trailing whitespace. -/
def stripEnd (l : List Char) : List Char := (l.reverse.dropWhile isWS).reverse

/-- Python `str.strip()`: drop leading and trailing whitespace. -/
def stripChars (l : List Char) : List Char := stripEnd (l.dropWhile isWS)

/-- Boolean "is this list a leading segment of that one". -/
def hasPrefL : List Char → List Char → Bool
  | [], _ => true
  | _ :: _, [] => false
  | a :: pre, b :: l => a == b && hasPrefL pre l

/-- Python `str.startswith`. -/
def pyStartswith (s t : String) : Bool := hasPrefL t.data s.data

/-- XPath `contains(a, b)` / Python `b in a`: substring containment. -/
def containsSub : List Char → List Char → Bool
  | [], sub => hasPrefL sub []
  | a :: r, sub => hasPrefL sub (a :: r) || containsSub r sub

/-- Python `s.split(sep)` for a one-character separator: always returns at
least one (possibly empty) group. -/
def splitCh (sep : Char) : List Char → List (List Char)
  | [] => [[]]
  | a :: rest =>
    match splitCh sep rest with
    | [] => [[]]
    | g :: gs => if a == sep then [] :: g :: gs else (a :: g) :: gs

theorem lenDropWhile (p : Char → Bool) (l : List Char) :
    (l.dropWhile p).length ≤ l.length := by
  induction l with
  | nil => simp
  | cons a r ih =>
    by_cases h : p a
    · simp [List.dropWhile_cons, h]; omega
    · simp [List.dropWhile_cons, h]

/-- Helper for `splitWS`: `cur` holds the current word, reversed. -/
def splitWSAux : List Char → List Char → List (List Char)
  | cur, [] => if cur.isEmpty then [] else [cur.reverse]
  | cur, a :: rest =>
    if isWS a then
      if cur.isEmpty then splitWSAux [] rest else cur.reverse :: splitWSAux [] rest
    else splitWSAux (a :: cur) rest

/-- Python `s.split()` (no argument): split on whitespace runs, discarding
empty groups. -/
def splitWS (l : List Char) : List (List Char) := splitWSAux [] l

/-! ## Python `float`: parsing and `str` formatting

Python floats are modelled by exact rationals.  `PyF` is a plain
numerator/denominator pair (the denominator positive by construction, not
necessarily reduced); every operation the program performs on floats
(parsing, subtraction, decimal formatting) is exact on the values the
claims exercise. -/

structure PyF where
  num : Int
  den : Nat
deriving Repr, DecidableEq

/-- `a - b` on exact rationals. -/
def pySub (a b : PyF) : PyF :=
  ⟨a.num * b.den - b.num * a.den, a.den * b.den⟩

def pyNeg (a : PyF) : PyF := ⟨-a.num, a.den⟩

/-- Reduce to lowest terms (for formatting). -/
def pyNorm (q : PyF) : PyF :=
  let g := Nat.gcd q.num.natAbs q.den
  if g ≤ 1 then q else ⟨q.num / (g : Int), q.den / g⟩

/-- Digit run to a natural number. -/
def natOfDigits (l : List Char) : Nat :=
  l.foldl (fun n c => n * 10 + (c.toNat - 48)) 0

/-- Parse the part of a Python float literal after an optional sign:
`digits [ "." digits ] [ ("e"|"E") [sign] digits ]`, where at least one
mantissa digit must be present. -/
def parseAfterSign (l : List Char) : Option PyF :=
  let ip := l.takeWhile isDig
  let r1 := l.drop ip.length
  let fp := match r1 with
    | '.' :: rest => rest.takeWhile isDig
    | _ => []
  let r2 := match r1 with
    | '.' :: rest => rest.drop fp.length
    | _ => r1
  if ip.isEmpty && fp.isEmpty then none
  else
    let mant : PyF := ⟨natOfDigits (ip ++ fp), 10 ^ fp.length⟩
    match r2 with
    | [] => some mant
    | e :: rest =>
      if e == 'e' || e == 'E' then
        let (eneg, r3) : Bool × List Char := match rest with
          | '+' :: rr => (false, rr)
          | '-' :: rr => (true, rr)
          | _ => (false, rest)
        let ed := r3.takeWhile isDig
        if ed.isEmpty || !(r3.drop ed.length).isEmpty then none
        else some (if eneg then ⟨mant.num, mant.den * 10 ^ natOfDigits ed⟩
                   else ⟨mant.num * 10 ^ natOfDigits ed, mant.den⟩)
      else none

/-- Python `float(s)`: strip surrounding whitespace, optional sign, then the
numeric literal; `none` models the `ValueError` raise.  (`inf`/`nan` and
digit underscores are not modelled; no input of the program uses them.) -/
def pyFloat (s : String) : Option PyF :=
  match stripChars s.data with
  | '+' :: r => parseAfterSign r
  | '-' :: r => (parseAfterSign r).map pyNeg
  | l => parseAfterSign l

/-- Decimal digits of a natural number (`fuel`-driven so that the kernel
can evaluate it; the wrapper supplies enough fuel for any input). -/
def natCharsAux : Nat → Nat → List Char
  | 0, _ => []
  | fuel + 1, n =>
    if n < 10 then [Char.ofNat (48 + n)]
    else natCharsAux fuel (n / 10) ++ [Char.ofNat (48 + n % 10)]

def natChars (n : Nat) : List Char := natCharsAux (n + 1) n

/-- Decimal digits of an integer, with sign. -/
def intChars (i : Int) : List Char :=
  if i < 0 then '-' :: natChars i.natAbs else natChars i.natAbs

/-- Smallest `k` with `1 ≤ k ≤ fuel` making `q * 10^k` integral (`q` in
lowest terms). -/
def findDec (q : PyF) : Nat → Nat → Option Nat
  | _, 0 => none
  | k, fuel + 1 =>
    if q.num.natAbs * 10 ^ k % q.den = 0 then some k else findDec q (k + 1) fuel

/-- Python `str(f)` for the floats this program produces.  Exact for
integral values (`n` prints as `"n.0"`, which is what every verified
scenario exercises) and for short terminating decimals; other rationals get
a fallback rendering (never reached by the claims). -/
def pyFloatChars (q0 : PyF) : List Char :=
  let q := pyNorm q0
  if q.den = 1 then intChars q.num ++ ['.', '0']
  else
    match findDec q 1 30 with
    | some k =>
      let n := q.num.natAbs * 10 ^ k / q.den
      let ds := natChars n
      let ds := List.replicate (k + 1 - ds.length) '0' ++ ds
      (if q.num < 0 then ['-'] else []) ++
        ds.take (ds.length - k) ++ '.' :: ds.drop (ds.length - k)
    | none => intChars q.num ++ '/' :: natChars q.den

def pyFloatStr (q : PyF) : String := ⟨pyFloatChars q⟩

/-! ## The document model -/

/-- An lxml node: an element (tag in Clark notation, ordered attributes,
`text`, children, `tail`) or a comment (content, `tail`). -/
inductive Node where
  | elem (tag : String) (attrs : List (String × String)) (text : String)
      (children : List Node) (tail : String)
  | comment (content : String) (tail : String)
deriving Repr

/-- `elem.get(name)`: first (only) binding of an attribute. -/
def attrGet : List (String × String) → String → Option String
  | [], _ => none
  | (k, v) :: rest, key => if k = key then some v else attrGet rest key

/-- `elem.set(name, value)` / `elem.attrib[name] = value`: replace in place,
else append. -/
def attrSet : List (String × String) → String → String → List (String × String)
  | [], key, v => [(key, v)]
  | (k, w) :: rest, key, v =>
    if k = key then (key, v) :: rest else (k, w) :: attrSet rest key v

/-- `del elem.attrib[name]` (attribute names are unique in a parsed tree, so
removing every binding is the same as removing the one). -/
def attrDel (a : List (String × String)) (key : String) : List (String × String) :=
  a.filter (fun p => !(p.1 = key : Bool))

/-- `etree.QName(elem).namespace`: the URI between the Clark braces, `none`
when the tag carries no namespace. -/
def qnNamespace (t : String) : Option String :=
  match t.data with
  | '{' :: rest => some ⟨rest.takeWhile (fun c => !(c == '}'))⟩
  | _ => none

/-- `etree.QName(elem).localname`. -/
def qnLocal (t : String) : String :=
  match t.data with
  | '{' :: rest => ⟨(rest.dropWhile (fun c => !(c == '}'))).drop 1⟩
  | l => ⟨l⟩

/-- Python truthiness of an optional string attribute value. -/
def truthy : Option String → Bool
  | none => false
  | some s => !s.data.isEmpty

def tagOf : Node → String
  | .elem t _ _ _ _ => t
  | .comment _ _ => ""

def attrsOf : Node → List (String × String)
  | .elem _ a _ _ _ => a
  | .comment _ _ => []

def childrenOf : Node → List Node
  | .elem _ _ _ cs _ => cs
  | .comment _ _ => []

def isElemB : Node → Bool
  | .elem _ _ _ _ _ => true
  | .comment _ _ => false

/-- `[c for c in root if isinstance(c.tag, str)]`: the element children
(comments have a non-string tag). -/
def elemsOf (l : List Node) : List Node := l.filter isElemB

/-! ## Step 1: `etree.strip_elements(tree, etree.Comment, with_tail=False)`

Every comment node is removed; because `with_tail=False`, a removed
comment's tail text stays in the tree, appended to the preceding sibling's
tail or, failing that, to the parent's text. -/

/-- Append to a node's tail. -/
def addTail : Node → String → Node
  | .elem t a x cs tl, s => .elem t a x cs (tl ++ s)
  | .comment c tl, s => .comment c (tl ++ s)

/-- Remove the comments following a kept node, folding their tails into its
tail. -/
def mergeAfter : Node → List Node → List Node
  | n, [] => [n]
  | n, .comment _ tl :: rest => mergeAfter (addTail n tl) rest
  | n, m :: rest => n :: mergeAfter m rest

/-- Remove the comments of one child list, folding leading comment tails
into the parent's text. -/
def mergeT : String → List Node → String × List Node
  | x, [] => (x, [])
  | x, .comment _ tl :: rest => mergeT (x ++ tl) rest
  | x, n :: rest => (x, mergeAfter n rest)

/-- Recursive comment stripping of a child list (inside each element first,
then at this level via `mergeT` in the element case). -/
def scL : List Node → List Node
  | [] => []
  | .elem t a x cs tl :: rest =>
    let p := mergeT x (scL cs)
    .elem t a p.1 p.2 tl :: scL rest
  | n :: rest => n :: scL rest

/-- Comment stripping applied at the root element. -/
def scRoot : Node → Node
  | .elem t a x cs tl =>
    let p := mergeT x (scL cs)
    .elem t a p.1 p.2 tl
  | n => n

/-! ## Steps 2–4: foreign-content pruning, attribute stripping, style
cleanup (the `root.xpath(".|.//*")` loop, lines 16–44) -/

def svgNS : String := "http://www.w3.org/2000/svg"

/-- An element survives the loop iff its namespace is the SVG namespace and
its local name is not `defs` (`QName(elem).namespace != ... or localname in
("defs",)` negated). -/
def keepTag (t : String) : Bool :=
  (qnNamespace t == some svgNS) && !(qnLocal t == "defs")

/-- An attribute name removed by the loop: namespaced (Clark `}' present)
or `-inkscape`-prefixed. -/
def badName (nm : String) : Bool :=
  nm.data.contains '}' || pyStartswith nm "-inkscape"

/-- The surviving, stripped declarations of a `style` attribute value
(`[part.strip() for part in style.split(";") if part.strip() and not
part.strip().startswith("-inkscape")]`). -/
def stylePartsL (l : List Char) : List (List Char) :=
  ((splitCh ';' l).map stripChars).filter
    (fun p => !p.isEmpty && !hasPrefL "-inkscape".data p)

/-- `"; ".join(parts)`. -/
def joinParts : List (List Char) → List Char
  | [] => []
  | [p] => p
  | p :: ps => p ++ ';' :: ' ' :: joinParts ps

/-- Rewrite of a `style` value: `none` means the attribute is deleted. -/
def cleanStyle (v : String) : Option String :=
  match stylePartsL v.data with
  | [] => none
  | ps => some ⟨joinParts ps⟩

/-- Attribute cleanup of one surviving element: drop bad names, then
rewrite or drop `style`. -/
def cleanAttrs (a : List (String × String)) : List (String × String) :=
  (a.filter (fun p => !badName p.1)).filterMap
    (fun p => if p.1 = "style" then (cleanStyle p.2).map (fun v => ("style", v))
              else some p)

/-- The pruning/cleanup loop on a child list: a non-kept element is removed
with its whole subtree (and, as `parent.remove` does, its tail); a kept one
has its attributes cleaned and its children processed. -/
def pruneL : List Node → List Node
  | [] => []
  | .elem t a x cs tl :: rest =>
    if keepTag t then .elem t (cleanAttrs a) x (pruneL cs) tl :: pruneL rest
    else pruneL rest
  | n :: rest => n :: pruneL rest

/-- The loop at the root: the root has no parent so it is never removed; its
attributes are cleaned only when it passes the keep test (otherwise the
`continue` skips them), and its descendants are processed either way. -/
def pruneRoot : Node → Node
  | .elem t a x cs tl =>
    if keepTag t then .elem t (cleanAttrs a) x (pruneL cs) tl
    else .elem t a x (pruneL cs) tl
  | n => n

/-! ## Steps 6–7: `defs` removal and gray-stroke pruning (xpath passes) -/

/-- Subtree removal of every non-root element whose tag and attributes
satisfy `p`, top-down (the xpath snapshot plus `getparent().remove` net
effect on the live tree). -/
def remL (p : String → List (String × String) → Bool) : List Node → List Node
  | [] => []
  | .elem t a x cs tl :: rest =>
    if p t a then remL p rest
    else .elem t a x (remL p cs) tl :: remL p rest
  | n :: rest => n :: remL p rest

/-- The xpath passes select with `.//`, so the root itself is exempt. -/
def remRoot (p : String → List (String × String) → Bool) : Node → Node
  | .elem t a x cs tl => .elem t a x (remL p cs) tl
  | n => n

/-- `.//defs`: an unprefixed XPath name test only matches elements with no
namespace, i.e. tag exactly `"defs"` in Clark notation. -/
def defsP (t : String) (_ : List (String × String)) : Bool := t == "defs"

/-- `.//*[local-name()='ln'][contains(@key, '#999')]`. -/
def grayP (ln key : String) (t : String) (a : List (String × String)) : Bool :=
  (qnLocal t == ln) &&
    match attrGet a key with
    | some v => containsSub v.data "#999".data
    | none => false

/-! ## Step 10: sizing reconciliation (lines 67–98) -/

inductive SkipReason where
  | noSizeInfo
  | unparseableSize
deriving Repr, DecidableEq

inductive SizeResult where
  | ok (n : Node)
  | skip (r : SkipReason)
deriving Repr

/-- `f"0 0 {float(width)} {float(height)}"`. -/
def vbDerived (fw fh : PyF) : String :=
  ⟨'0' :: ' ' :: '0' :: ' ' :: (pyFloatChars fw ++ ' ' :: pyFloatChars fh)⟩

/-- The width/height/viewBox case analysis of `cleanup_svg`. -/
def sizing : Node → SizeResult
  | .elem t a x cs tl =>
    let w := attrGet a "width"
    let h := attrGet a "height"
    let vb := attrGet a "viewBox"
    if !(truthy w && truthy h) then
      if !truthy vb then .skip .noSizeInfo else .ok (.elem t a x cs tl)
    else
      if !truthy vb then
        match pyFloat (w.getD ""), pyFloat (h.getD "") with
        | some fw, some fh =>
          .ok (.elem t (attrDel (attrDel (attrSet a "viewBox" (vbDerived fw fh)) "width") "height") x cs tl)
        | _, _ => .skip .unparseableSize
      else .ok (.elem t (attrDel (attrDel a "width") "height") x cs tl)
  | n => .ok n

/-! ## Step 9: translate absorption (lines 100–121) -/

/-- Tail of `TRANSLATE_RE` after group 1: `\s*[,\s]\s*([^)]+)\s*\)\s*$`.
Returns group 2. -/
def translateG2 (l : List Char) : Option (List Char) :=
  let g2 := l.takeWhile (fun c => !(c == ')'))
  if g2.isEmpty then none
  else
    match l.drop g2.length with
    | ')' :: rest => if (rest.dropWhile isWS).isEmpty then some g2 else none
    | _ => none

/-- `TRANSLATE_RE.match`:
`^\s*translate\(\s*([^,\s]+)\s*[,\s]\s*([^)]+)\s*\)\s*$`, returning the two
captured groups.  The regex is deterministic: group 1 is the maximal run of
non-comma, non-whitespace characters; the separator is either whitespace
followed by a comma (then whitespace), or at least one whitespace character. -/
def translateMatch (s : String) : Option (String × String) :=
  let l1 := s.data.dropWhile isWS
  if hasPrefL "translate(".data l1 then
    let l2 := (l1.drop 10).dropWhile isWS
    let g1 := l2.takeWhile (fun c => !(c == ',') && !isWS c)
    if g1.isEmpty then none
    else
      let l3 := l2.drop g1.length
      let wsRun := l3.takeWhile isWS
      let l4 := l3.drop wsRun.length
      match l4 with
      | ',' :: l5 =>
        (translateG2 (l5.dropWhile isWS)).map (fun g2 => (⟨g1⟩, ⟨g2⟩))
      | _ =>
        if wsRun.isEmpty then none
        else (translateG2 l4).map (fun g2 => (⟨g1⟩, ⟨g2⟩))
  else none

/-- `del g.attrib["transform"]` applied to the element children of the root
(the guard guarantees there is exactly one). -/
def delTransformElems : List Node → List Node
  | [] => []
  | .elem t a x cs tl :: rest => .elem t (attrDel a "transform") x cs tl :: rest
  | n :: rest => n :: delTransformElems rest

inductive AbsorbResult where
  | ok (n : Node)
  | raised
deriving Repr

/-- The rewritten viewBox `f"{min_x - tx} {min_y - ty} {vw} {vh}"`. -/
def vbShifted (mx my vw vh tx ty : PyF) : String :=
  ⟨pyFloatChars (pySub mx tx) ++ ' ' :: (pyFloatChars (pySub my ty) ++ ' ' ::
    (pyFloatChars vw ++ ' ' :: pyFloatChars vh))⟩

/-- Translate absorption.  Note that the four `float(p)` calls on the
viewBox parts are *not* inside a `try`, so an unparseable part raises an
uncaught `ValueError` (modelled by `.raised`). -/
def absorb : Node → AbsorbResult
  | .elem t a x cs tl =>
    let vb := attrGet a "viewBox"
    if !truthy vb then .ok (.elem t a x cs tl)
    else
      match elemsOf cs with
      | [g] =>
        if qnLocal (tagOf g) == "g" then
          match translateMatch ((attrGet (attrsOf g) "transform").getD "") with
          | some (s1, s2) =>
            match pyFloat s1, pyFloat s2 with
            | some tx, some ty =>
              match splitWS (vb.getD "").data with
              | [p1, p2, p3, p4] =>
                match pyFloat ⟨p1⟩, pyFloat ⟨p2⟩, pyFloat ⟨p3⟩, pyFloat ⟨p4⟩ with
                | some mx, some my, some vw, some vh =>
                  .ok (.elem t (attrSet a "viewBox" (vbShifted mx my vw vh tx ty)) x
                    (delTransformElems cs) tl)
                | _, _, _, _ => .raised
              | _ => .ok (.elem t a x cs tl)
            | _, _ => .ok (.elem t a x cs tl)
          | none => .ok (.elem t a x cs tl)
        else .ok (.elem t a x cs tl)
      | _ => .ok (.elem t a x cs tl)
  | n => .ok n

/-! ## Step 11: serialization (`etree.tostring(tree, xml_declaration=True,
encoding="UTF-8", pretty_print=False)` then `output.write_text`) -/

def escTextC (c : Char) : List Char :=
  if c == '&' then "&amp;".data
  else if c == '<' then "&lt;".data
  else if c == '>' then "&gt;".data
  else [c]

def escAttrC (c : Char) : List Char :=
  if c == '&' then "&amp;".data
  else if c == '<' then "&lt;".data
  else if c == '"' then "&quot;".data
  else [c]

def escText (s : String) : List Char := (s.data.map escTextC).flatten

def escAttr (s : String) : List Char := (s.data.map escAttrC).flatten

def serAttrs : List (String × String) → List Char
  | [] => []
  | (k, v) :: rest =>
    ' ' :: ((qnLocal k).data ++ '=' :: '"' :: (escAttr v ++ '"' :: serAttrs rest))

/-- Serialize a sibling list (each node followed by its tail).  An element
with neither text nor children self-closes, as lxml emits it. -/
def serL : List Node → List Char
  | [] => []
  | .elem t a x cs tl :: rest =>
    let nm := (qnLocal t).data
    let inner := escText x ++ serL cs
    (if inner.isEmpty then '<' :: (nm ++ serAttrs a ++ "/>".data)
     else '<' :: (nm ++ serAttrs a ++ '>' :: (inner ++ '<' :: '/' :: (nm ++ ['>'])))) ++
      escText tl ++ serL rest
  | .comment c tl :: rest =>
    "<!--".data ++ c.data ++ "-->".data ++ escText tl ++ serL rest

/-- `<?xml version='1.0' encoding='UTF-8'?>\n`, the exact declaration lxml
emits for `xml_declaration=True, encoding="UTF-8"`. -/
def xmlDeclChars : List Char := "<?xml version='1.0' encoding='UTF-8'?>\n".data

/-- The bytes written to the output file. -/
def serializeDoc (n : Node) : List Char := xmlDeclChars ++ serL [n]

/-! ## The full pipeline `cleanup_svg` -/

inductive CleanupResult where
  /-- Normalization succeeded: final tree and the bytes written. -/
  | ok (tree : Node) (out : List Char)
  /-- `logging.error(...); return` — no output file written. -/
  | skipped (r : SkipReason)
  /-- An uncaught Python exception escaped `cleanup_svg`. -/
  | raised
deriving Repr

/-- `cleanup_svg(path, output)` from `src/svg.py`, as a function from the
parsed input tree to its observable outcome.  `etree.cleanup_namespaces`
only rewrites namespace-prefix declarations, which the model does not
carry, so it is the identity here. -/
def cleanup_svg (input : Node) : CleanupResult :=
  let t1 := scRoot input
  let t2 := pruneRoot t1
  let t3 := remRoot defsP t2
  let t4 := remRoot (grayP "g" "stroke") t3
  let t5 := remRoot (grayP "g" "style") t4
  let t6 := remRoot (grayP "path" "stroke") t5
  let t7 := remRoot (grayP "path" "style") t6
  match sizing t7 with
  | .skip r => .skipped r
  | .ok t8 =>
    match absorb t8 with
    | .raised => .raised
    | .ok t9 => .ok t9 (serializeDoc t9)

/-! ## Utility lemmas: whitespace stripping and splitting -/

theorem dwIdem (p : Char → Bool) (l : List Char) :
    (l.dropWhile p).dropWhile p = l.dropWhile p := by
  induction l with
  | nil => rfl
  | cons a r ih =>
    by_cases h : p a
    · simpa [List.dropWhile_cons, h] using ih
    · simp [List.dropWhile_cons, h]

theorem dwAppend (p : Char → Bool) (s t : List Char) :
    (s ++ t).dropWhile p =
      if (s.dropWhile p).isEmpty then t.dropWhile p else s.dropWhile p ++ t := by
  induction s with
  | nil => simp
  | cons a rs ih =>
    by_cases h : p a
    · simpa [List.dropWhile_cons, h] using ih
    · simp [List.dropWhile_cons, h]

theorem dwHead (p : Char → Bool) (l : List Char) {a : Char} {r : List Char}
    (h : l.dropWhile p = a :: r) : p a = false := by
  induction l with
  | nil => simp at h
  | cons b rs ih =>
    by_cases hb : p b
    · exact ih (by simpa [List.dropWhile_cons, hb] using h)
    · rw [List.dropWhile_cons] at h
      simp [hb] at h
      simpa [← h.1] using hb

theorem memDW (p : Char → Bool) {c : Char} {l : List Char}
    (h : c ∈ l.dropWhile p) : c ∈ l := by
  induction l with
  | nil => simp at h
  | cons a r ih =>
    by_cases ha : p a
    · exact .tail a (ih (by simpa [List.dropWhile_cons, ha] using h))
    · simpa [List.dropWhile_cons, ha] using h

theorem stripEndIdem (l : List Char) : stripEnd (stripEnd l) = stripEnd l := by
  simp [stripEnd, dwIdem]

theorem stripEndCons {a : Char} (h : isWS a = false) (r : List Char) :
    stripEnd (a :: r) = a :: stripEnd r := by
  unfold stripEnd
  rw [List.reverse_cons, dwAppend]
  by_cases he : (r.reverse.dropWhile isWS).isEmpty
  · simp [he, List.dropWhile_cons, h, stripEnd]
    simpa [List.isEmpty_iff] using he
  · simp [he, stripEnd]

theorem stripCharsWS {a : Char} (h : isWS a = true) (l : List Char) :
    stripChars (a :: l) = stripChars l := by
  simp [stripChars, List.dropWhile_cons, h]

theorem stripCharsIdem (l : List Char) : stripChars (stripChars l) = stripChars l := by
  unfold stripChars
  rcases hm : l.dropWhile isWS with _ | ⟨a, r⟩
  · rfl
  · have ha : isWS a = false := dwHead isWS l hm
    rw [stripEndCons ha]
    rw [show (a :: stripEnd r).dropWhile isWS = a :: stripEnd r by
      simp [List.dropWhile_cons, ha]]
    rw [stripEndCons ha, stripEndIdem]

theorem memStripChars {c : Char} {l : List Char} (h : c ∈ stripChars l) : c ∈ l := by
  unfold stripChars stripEnd at h
  have h1 : c ∈ (l.dropWhile isWS).reverse.dropWhile isWS := by
    simpa using h
  have h2 := memDW isWS h1
  exact memDW isWS (by simpa using h2)

theorem splitChNeNil (c : Char) (l : List Char) : splitCh c l ≠ [] := by
  induction l with
  | nil => simp [splitCh]
  | cons a r ih =>
    unfold splitCh
    rcases h : splitCh c r with _ | ⟨g, gs⟩
    · exact absurd h ih
    · by_cases hac : a == c <;> simp [hac]

theorem splitChNoSep (c : Char) (l : List Char) :
    ∀ g ∈ splitCh c l, c ∉ g := by
  induction l with
  | nil => intro g hg; simp [splitCh] at hg; simp [hg]
  | cons a r ih =>
    intro g hg
    unfold splitCh at hg
    rcases h : splitCh c r with _ | ⟨g0, gs⟩
    · exact absurd h (splitChNeNil c r)
    · rw [h] at hg
      by_cases hac : a == c
      · simp [hac] at hg
        rcases hg with hg | hg | hg
        · simp [hg]
        · exact ih g (by rw [h, hg]; exact .head _)
        · exact ih g (by rw [h]; exact .tail _ hg)
      · simp [hac] at hg
        rcases hg with hg | hg
        · subst hg
          intro hc
          rcases List.mem_cons.1 hc with hc | hc
          · subst hc; simp at hac
          · exact ih g0 (by rw [h]; exact .head _) hc
        · exact ih g (by rw [h]; exact .tail _ hg)

theorem splitChOfNoSep {c : Char} {l : List Char} (h : c ∉ l) :
    splitCh c l = [l] := by
  induction l with
  | nil => rfl
  | cons a r ih =>
    have hac : (a == c) = false := by
      simp only [List.mem_cons, not_or] at h
      simp [beq_iff_eq]
      exact fun e => h.1 e.symm
    have hr : splitCh c r = [r] := ih (by simp only [List.mem_cons, not_or] at h; exact h.2)
    unfold splitCh
    rw [hr]
    simp [hac]

theorem splitChAppendSep {c : Char} {p : List Char} (h : c ∉ p) (m : List Char) :
    splitCh c (p ++ c :: m) = p :: splitCh c m := by
  induction p with
  | nil =>
    show splitCh c (c :: m) = [] :: splitCh c m
    rw [splitCh.eq_def]
    rcases hm : splitCh c m with _ | ⟨g, gs⟩
    · exact absurd hm (splitChNeNil c m)
    · simp [hm]
  | cons a p' ih =>
    have hac : (a == c) = false := by
      simp only [List.mem_cons, not_or] at h
      simp [beq_iff_eq]
      exact fun e => h.1 e.symm
    have hih := ih (by simp only [List.mem_cons, not_or] at h; exact h.2)
    show splitCh c (a :: (p' ++ c :: m)) = (a :: p') :: splitCh c m
    rw [splitCh.eq_def]
    simp only [hih]
    rcases hm : splitCh c m with _ | ⟨g, gs⟩
    · exact absurd hm (splitChNeNil c m)
    · simp [hac]

theorem hasPrefLSelf (l m : List Char) : hasPrefL l (l ++ m) = true := by
  induction l with
  | nil => rfl
  | cons a r ih => simpa [hasPrefL] using ih

theorem isEmptyAppendCons (l : List Char) (a : Char) (m : List Char) :
    (l ++ a :: m).isEmpty = false := by
  cases l <;> rfl

/-! ## The style-cleanup round trip -/

theorem stylePartsGood (l : List Char) :
    ∀ p ∈ stylePartsL l,
      p ≠ [] ∧ stripChars p = p ∧ ';' ∉ p ∧ hasPrefL "-inkscape".data p = false := by
  intro p hp
  unfold stylePartsL at hp
  have hmem := List.mem_filter.1 hp
  obtain ⟨q, hq, hpq⟩ := List.mem_map.1 hmem.1
  have hcond := hmem.2
  simp only [Bool.and_eq_true, Bool.not_eq_true'] at hcond
  refine ⟨?_, ?_, ?_, hcond.2⟩
  · intro hnil
    rw [hnil] at hcond
    simp at hcond
  · rw [← hpq, stripCharsIdem]
  · intro hsemi
    exact splitChNoSep ';' l q hq (memStripChars (hpq ▸ hsemi))

theorem stylePartsConsLemma (p J : List Char)
    (hne : p ≠ []) (hst : stripChars p = p) (hsemi : ';' ∉ p)
    (hink : hasPrefL "-inkscape".data p = false) :
    stylePartsL (p ++ ';' :: ' ' :: J) = p :: stylePartsL J := by
  unfold stylePartsL
  rw [splitChAppendSep hsemi]
  rcases hJ : splitCh ';' J with _ | ⟨g, gs⟩
  · exact absurd hJ (splitChNeNil ';' J)
  · have hsp : splitCh ';' (' ' :: J) = (' ' :: g) :: gs := by
      rw [splitCh.eq_def]
      simp [hJ]
    rw [hsp]
    simp only [List.map_cons, List.filter_cons,
      stripCharsWS (show isWS ' ' = true from rfl), hst]
    have hcond : (!p.isEmpty && !hasPrefL "-inkscape".data p) = true := by
      rcases p with _ | ⟨a, r⟩
      · exact absurd rfl hne
      · simp [hink]
    rw [hcond]
    simp

theorem joinRound (ps : List (List Char))
    (h : ∀ p ∈ ps,
      p ≠ [] ∧ stripChars p = p ∧ ';' ∉ p ∧ hasPrefL "-inkscape".data p = false) :
    ps ≠ [] → stylePartsL (joinParts ps) = ps := by
  induction ps with
  | nil => intro hc; exact absurd rfl hc
  | cons p qs ih =>
    intro _
    obtain ⟨hne, hst, hsemi, hink⟩ := h p (.head _)
    rcases qs with _ | ⟨q, qs'⟩
    · show stylePartsL p = [p]
      unfold stylePartsL
      rw [splitChOfNoSep hsemi]
      simp only [List.map_cons, List.map_nil, hst, List.filter_cons, List.filter_nil]
      rcases p with _ | ⟨a, r⟩
      · exact absurd rfl hne
      · simp [hink]
    · show stylePartsL (p ++ ';' :: ' ' :: joinParts (q :: qs')) = _
      rw [stylePartsConsLemma p _ hne hst hsemi hink]
      rw [ih (fun r hr => h r (.tail _ hr)) (by simp)]

theorem cleanStyleRound {v w : String} (h : cleanStyle v = some w) :
    cleanStyle w = some w := by
  unfold cleanStyle at h
  rcases hv : stylePartsL v.data with _ | ⟨p, ps⟩
  · rw [hv] at h; exact absurd h (by simp)
  · rw [hv] at h
    have hw : w = ⟨joinParts (p :: ps)⟩ := by
      have := h
      simp at this
      exact this.symm
    have hgood := stylePartsGood v.data
    rw [hv] at hgood
    have hround : stylePartsL (joinParts (p :: ps)) = p :: ps :=
      joinRound (p :: ps) hgood (by simp)
    unfold cleanStyle
    have hwd : w.data = joinParts (p :: ps) := by rw [hw]
    rw [hwd, hround, hw]

/-! ## Attribute-level lemmas -/

/-- A single attribute entry that the cleanup loop leaves unchanged. -/
def goodEntry (p : String × String) : Bool :=
  !badName p.1 && (!(p.1 == "style") || (cleanStyle p.2 == some p.2))

/-- Every entry is stable under the cleanup loop. -/
def attrsGood (a : List (String × String)) : Bool := a.all goodEntry

theorem cleanAttrsFix {a : List (String × String)} (h : attrsGood a = true) :
    cleanAttrs a = a := by
  induction a with
  | nil => rfl
  | cons p rest ih =>
    simp only [attrsGood, List.all_cons, Bool.and_eq_true] at h
    have hp := h.1
    have hrest : cleanAttrs rest = rest := ih h.2
    simp only [goodEntry, Bool.and_eq_true, Bool.or_eq_true, Bool.not_eq_true'] at hp
    unfold cleanAttrs at hrest ⊢
    rw [List.filter_cons, hp.1]
    simp only [Bool.not_false, if_pos, List.filterMap_cons]
    rcases hp.2 with hns | hcs
    · have hs : ¬(p.1 = "style") := by simpa [beq_iff_eq] using hns
      simp only [if_neg hs]
      rw [hrest]
    · by_cases hs : p.1 = "style"
      · have hc : cleanStyle p.2 = some p.2 := by simpa using hcs
        simp only [if_pos hs, hc]
        show ("style", p.2) :: _ = p :: rest
        rw [hrest]
        rw [show (("style", p.2) : String × String) = p from by rw [← hs]]
      · simp only [if_neg hs]
        rw [hrest]

theorem cleanAttrsGood (a : List (String × String)) :
    attrsGood (cleanAttrs a) = true := by
  induction a with
  | nil => rfl
  | cons p rest ih =>
    unfold cleanAttrs at ih ⊢
    rw [List.filter_cons]
    cases hb : badName p.1 with
    | true => simpa [hb] using ih
    | false =>
      simp only [hb, Bool.not_false, if_pos, List.filterMap_cons]
      by_cases hs : p.1 = "style"
      · rcases hc : cleanStyle p.2 with _ | w
        · simpa [hs, hc] using ih
        · simp only [if_pos hs, hc]
          show attrsGood (("style", w) :: _) = true
          simp only [attrsGood, List.all_cons, Bool.and_eq_true]
          refine ⟨?_, ih⟩
          have hwr := cleanStyleRound hc
          simp [goodEntry, badName, pyStartswith, hasPrefL, hwr]
      · simp only [if_neg hs]
        show attrsGood (p :: _) = true
        simp only [attrsGood, List.all_cons, Bool.and_eq_true]
        exact ⟨by simp [goodEntry, hb, hs], ih⟩

theorem attrsGoodDel {a : List (String × String)} (h : attrsGood a = true)
    (k : String) : attrsGood (attrDel a k) = true := by
  simp only [attrsGood, List.all_eq_true] at h ⊢
  intro p hp
  exact h p (List.mem_of_mem_filter hp)

theorem attrsGoodSet {a : List (String × String)} (h : attrsGood a = true)
    {k v : String} (hkv : goodEntry (k, v) = true) :
    attrsGood (attrSet a k v) = true := by
  induction a with
  | nil => simpa [attrsGood, attrSet] using hkv
  | cons p rest ih =>
    simp only [attrsGood, List.all_cons, Bool.and_eq_true] at h
    unfold attrSet
    by_cases hk : p.1 = k
    · simp only [if_pos hk, attrsGood, List.all_cons, Bool.and_eq_true]
      exact ⟨hkv, h.2⟩
    · simp only [if_neg hk, attrsGood, List.all_cons, Bool.and_eq_true]
      exact ⟨h.1, ih h.2⟩

theorem attrGetSetSelf (a : List (String × String)) (k v : String) :
    attrGet (attrSet a k v) k = some v := by
  induction a with
  | nil => simp [attrSet, attrGet]
  | cons p rest ih =>
    unfold attrSet
    by_cases hk : p.1 = k
    · simp [hk, attrGet]
    · simp only [if_neg hk]
      unfold attrGet
      simp [hk, ih]

theorem attrGetSetOther (a : List (String × String)) {k k' : String} (v : String)
    (h : k' ≠ k) : attrGet (attrSet a k v) k' = attrGet a k' := by
  have hkk : ¬(k = k') := fun e => h e.symm
  induction a with
  | nil => simp [attrSet, attrGet, hkk]
  | cons p rest ih =>
    unfold attrSet
    by_cases hk : p.1 = k
    · have hpk' : ¬(p.1 = k') := by rw [hk]; exact hkk
      simp only [if_pos hk]
      unfold attrGet
      simp [hkk, hpk', hk]
    · simp only [if_neg hk]
      unfold attrGet
      by_cases hk' : p.1 = k'
      · simp [hk']
      · simp [hk', ih]

theorem attrGetDelSelf (a : List (String × String)) (k : String) :
    attrGet (attrDel a k) k = none := by
  induction a with
  | nil => rfl
  | cons p rest ih =>
    unfold attrDel
    rw [List.filter_cons]
    by_cases hk : p.1 = k
    · simpa [hk, attrDel] using ih
    · simp only [hk, decide_eq_true_eq, decide_eq_false hk, Bool.not_false, if_pos]
      unfold attrGet
      simpa [hk, attrDel] using ih

theorem attrGetDelOther (a : List (String × String)) {k k' : String}
    (h : k' ≠ k) : attrGet (attrDel a k) k' = attrGet a k' := by
  induction a with
  | nil => rfl
  | cons p rest ih =>
    unfold attrDel
    rw [List.filter_cons]
    by_cases hk : p.1 = k
    · have hpk' : ¬(p.1 = k') := by rw [hk]; exact fun e => h e.symm
      rw [show attrGet (p :: rest) k' = attrGet rest k' from by
        rw [attrGet.eq_def]; simp [hpk']]
      simp only [hk]
      simpa [attrDel] using ih
    · simp only [decide_eq_false hk, Bool.not_false, if_pos]
      unfold attrGet
      by_cases hpk' : p.1 = k'
      · simp [hpk']
      · simpa [hpk', attrDel] using ih

/-! ## Comment stripping: comment-freeness and text preservation -/

/-- No comment node at any depth. -/
def cfL : List Node → Bool
  | [] => true
  | .elem _ _ _ cs _ :: rest => cfL cs && cfL rest
  | .comment _ _ :: _ => false

def cfTop (n : Node) : Bool := cfL [n]

/-- No comment node strictly below the top level (the state of a child list
whose members have each been recursively stripped). -/
def wcfL : List Node → Bool
  | [] => true
  | .elem _ _ _ cs _ :: rest => cfL cs && wcfL rest
  | .comment _ _ :: rest => wcfL rest

/-- All text content that `strip_elements(..., with_tail=False)` preserves:
element text and every node's tail (a removed comment keeps its tail in the
tree; only the comment content itself goes away). -/
def tkL : List Node → List Char
  | [] => []
  | .elem _ _ x cs tl :: rest => x.data ++ (tkL cs ++ (tl.data ++ tkL rest))
  | .comment _ tl :: rest => tl.data ++ tkL rest

def tkN (n : Node) : List Char := tkL [n]

def textOf : Node → String
  | .elem _ _ x _ _ => x
  | .comment _ _ => ""

theorem cfLCons (n : Node) (l : List Node) : cfL (n :: l) = (cfTop n && cfL l) := by
  cases n <;> simp [cfL, cfTop]

theorem cfTopAddTail (n : Node) (s : String) : cfTop (addTail n s) = cfTop n := by
  cases n <;> simp [addTail, cfTop, cfL]

theorem tkNAddTail (n : Node) (s : String) : tkN (addTail n s) = tkN n ++ s.data := by
  cases n <;> simp [addTail, tkN, tkL, String.data_append]

theorem tkLCons (n : Node) (l : List Node) : tkL (n :: l) = tkN n ++ tkL l := by
  cases n <;> simp [tkL, tkN]

theorem cfLMergeAfter {n : Node} {l : List Node} (hn : cfTop n = true)
    (hl : wcfL l = true) : cfL (mergeAfter n l) = true := by
  induction l generalizing n with
  | nil => simpa [mergeAfter, cfLCons, cfL] using hn
  | cons m rest ih =>
    cases m with
    | comment c tl =>
      rw [show mergeAfter n (.comment c tl :: rest) = mergeAfter (addTail n tl) rest
        from rfl]
      exact ih (by rw [cfTopAddTail]; exact hn) (by simpa [wcfL] using hl)
    | elem t a x cs tl =>
      rw [show mergeAfter n (.elem t a x cs tl :: rest) =
        n :: mergeAfter (.elem t a x cs tl) rest from rfl]
      rw [cfLCons, hn]
      simp only [wcfL, Bool.and_eq_true] at hl
      simpa using ih (by simpa [cfTop, cfL] using hl.1) hl.2

theorem tkLMergeAfter (n : Node) (l : List Node) :
    tkL (mergeAfter n l) = tkN n ++ tkL l := by
  induction l generalizing n with
  | nil => simp [mergeAfter, tkN, tkL]
  | cons m rest ih =>
    cases m with
    | comment c tl =>
      rw [show mergeAfter n (.comment c tl :: rest) = mergeAfter (addTail n tl) rest
        from rfl]
      rw [ih, tkNAddTail]
      simp [tkL]
    | elem t a x cs tl =>
      rw [show mergeAfter n (.elem t a x cs tl :: rest) =
        n :: mergeAfter (.elem t a x cs tl) rest from rfl]
      rw [tkLCons, ih, tkLCons]

theorem mergeAfterId {l : List Node} (hl : cfL l = true) (n : Node) :
    mergeAfter n l = n :: l := by
  induction l generalizing n with
  | nil => rfl
  | cons m rest ih =>
    cases m with
    | comment c tl => simp [cfL] at hl
    | elem t a x cs tl =>
      rw [show mergeAfter n (.elem t a x cs tl :: rest) =
        n :: mergeAfter (.elem t a x cs tl) rest from rfl]
      rw [ih (by simp [cfL] at hl; exact hl.2)]

theorem cfLMergeT {x : String} {l : List Node} (hl : wcfL l = true) :
    cfL (mergeT x l).2 = true := by
  induction l generalizing x with
  | nil => simp [mergeT, cfL]
  | cons m rest ih =>
    cases m with
    | comment c tl =>
      exact ih (by simpa [wcfL] using hl)
    | elem t a x' cs tl =>
      show cfL (mergeAfter (Node.elem t a x' cs tl) rest) = true
      simp only [wcfL, Bool.and_eq_true] at hl
      exact cfLMergeAfter (by simpa [cfTop, cfL] using hl.1) hl.2

theorem tkMergeT (x : String) (l : List Node) :
    (mergeT x l).1.data ++ tkL (mergeT x l).2 = x.data ++ tkL l := by
  induction l generalizing x with
  | nil => simp [mergeT, tkL]
  | cons m rest ih =>
    cases m with
    | comment c tl =>
      show (mergeT (x ++ tl) rest).1.data ++ tkL (mergeT (x ++ tl) rest).2 = _
      rw [ih, String.data_append]
      simp [tkL]
    | elem t a x' cs tl =>
      show x.data ++ tkL (mergeAfter (.elem t a x' cs tl) rest) = _
      rw [tkLMergeAfter, tkLCons]

theorem mergeTId {l : List Node} (hl : cfL l = true) (x : String) :
    mergeT x l = (x, l) := by
  cases l with
  | nil => rfl
  | cons m rest =>
    cases m with
    | comment c tl => simp [cfL] at hl
    | elem t a x' cs tl =>
      show (x, mergeAfter (.elem t a x' cs tl) rest) = _
      rw [mergeAfterId (by simp [cfL] at hl; exact hl.2)]

theorem scLElemCons (t : String) (a : List (String × String)) (x : String)
    (cs : List Node) (tl : String) (rest : List Node) :
    scL (Node.elem t a x cs tl :: rest) =
      Node.elem t a (mergeT x (scL cs)).1 (mergeT x (scL cs)).2 tl :: scL rest := by
  simp [scL]

theorem scLCommentCons (c tl : String) (rest : List Node) :
    scL (Node.comment c tl :: rest) = Node.comment c tl :: scL rest := by
  simp [scL]

theorem wcfScL (l : List Node) : wcfL (scL l) = true := by
  induction l using scL.induct with
  | case1 => simp [scL, wcfL]
  | case2 t a x cs tl rest ihcs ihrest =>
    rw [scLElemCons]
    simp only [wcfL, Bool.and_eq_true]
    exact ⟨cfLMergeT ihcs, ihrest⟩
  | case3 n rest hne ihrest =>
    cases n with
    | elem t a x cs tl => exact absurd rfl (hne t a x cs tl)
    | comment c tl =>
      rw [scLCommentCons]
      simpa [wcfL] using ihrest

theorem tkScL (l : List Node) : tkL (scL l) = tkL l := by
  induction l using scL.induct with
  | case1 => simp [scL]
  | case2 t a x cs tl rest ihcs ihrest =>
    rw [scLElemCons]
    simp only [tkL]
    rw [ihrest]
    have hm := tkMergeT x (scL cs)
    rw [ihcs] at hm
    calc (mergeT x (scL cs)).1.data ++ (tkL (mergeT x (scL cs)).2 ++ (tl.data ++ tkL rest))
        = ((mergeT x (scL cs)).1.data ++ tkL (mergeT x (scL cs)).2) ++ (tl.data ++ tkL rest) := by
          simp [List.append_assoc]
      _ = (x.data ++ tkL cs) ++ (tl.data ++ tkL rest) := by rw [hm]
      _ = x.data ++ (tkL cs ++ (tl.data ++ tkL rest)) := by simp [List.append_assoc]
  | case3 n rest hne ihrest =>
    cases n with
    | elem t a x cs tl => exact absurd rfl (hne t a x cs tl)
    | comment c tl =>
      rw [scLCommentCons]
      simp only [tkL]
      rw [ihrest]

theorem scLId : ∀ l : List Node, cfL l = true → scL l = l := by
  intro l
  induction l using scL.induct with
  | case1 => intro _; simp [scL]
  | case2 t a x cs tl rest ihcs ihrest =>
    intro hl
    rw [cfLCons] at hl
    simp only [Bool.and_eq_true] at hl
    have hcs : cfL cs = true := by simpa [cfTop, cfL] using hl.1
    rw [scLElemCons, ihcs hcs, mergeTId hcs, ihrest hl.2]
  | case3 n rest hne ihrest =>
    intro hl
    cases n with
    | elem t a x cs tl => exact absurd rfl (hne t a x cs tl)
    | comment c tl => simp [cfL] at hl

theorem cfScRoot (t : String) (a : List (String × String)) (x : String)
    (cs : List Node) (tl : String) :
    cfL (childrenOf (scRoot (Node.elem t a x cs tl))) = true := by
  show cfL (mergeT x (scL cs)).2 = true
  exact cfLMergeT (wcfScL cs)

theorem scRootId {n : Node} (h : cfTop n = true) : scRoot n = n := by
  cases n with
  | comment c tl => rfl
  | elem t a x cs tl =>
    have hcs : cfL cs = true := by simpa [cfTop, cfL] using h
    show Node.elem t a (mergeT x (scL cs)).1 (mergeT x (scL cs)).2 tl = _
    rw [scLId cs hcs, mergeTId hcs]

/-! ## Pruning invariants -/

/-- Fixed point of the pruning/cleanup loop below the root: every element
(at any depth) passes the keep test and has cleanup-stable attributes. -/
def pfixL : List Node → Bool
  | [] => true
  | .elem t a _ cs _ :: rest => keepTag t && attrsGood a && pfixL cs && pfixL rest
  | .comment _ _ :: rest => pfixL rest

/-- No element below the root (at any depth) satisfies `p`. -/
def pclear (p : String → List (String × String) → Bool) : List Node → Bool
  | [] => true
  | .elem t a _ cs _ :: rest => !(p t a) && pclear p cs && pclear p rest
  | .comment _ _ :: rest => pclear p rest

theorem pfixPruneL : ∀ l : List Node, pfixL (pruneL l) = true := by
  intro l
  induction l using pruneL.induct with
  | case1 => simp [pruneL, pfixL]
  | case2 t a x cs tl rest hk ihcs ihrest =>
    simp only [pruneL, hk, if_pos]
    simp [pfixL, hk, cleanAttrsGood a, ihcs, ihrest]
  | case3 t a x cs tl rest hk ihrest =>
    simp only [pruneL, Bool.not_eq_true] at hk ⊢
    simp [hk, ihrest]
  | case4 n rest hne ihrest =>
    cases n with
    | elem t a x cs tl => exact absurd rfl (hne t a x cs tl)
    | comment c tl => simpa [pruneL, pfixL] using ihrest

theorem pruneLId : ∀ l : List Node, pfixL l = true → pruneL l = l := by
  intro l
  induction l using pruneL.induct with
  | case1 => intro _; simp [pruneL]
  | case2 t a x cs tl rest hk ihcs ihrest =>
    intro hl
    simp only [pfixL, Bool.and_eq_true] at hl
    simp only [pruneL, hk, if_pos]
    rw [cleanAttrsFix hl.1.1.2, ihcs hl.1.2, ihrest hl.2]
  | case3 t a x cs tl rest hk ihrest =>
    intro hl
    simp only [pfixL, Bool.and_eq_true] at hl
    exact absurd hl.1.1.1 hk
  | case4 n rest hne ihrest =>
    intro hl
    cases n with
    | elem t a x cs tl => exact absurd rfl (hne t a x cs tl)
    | comment c tl =>
      simp only [pfixL] at hl
      simp [pruneL, ihrest hl]

theorem cfPruneL : ∀ l : List Node, cfL l = true → cfL (pruneL l) = true := by
  intro l
  induction l using pruneL.induct with
  | case1 => intro _; simp [pruneL, cfL]
  | case2 t a x cs tl rest hk ihcs ihrest =>
    intro hl
    simp only [cfL, Bool.and_eq_true] at hl
    simp only [pruneL, hk, if_pos]
    simp [cfL, ihcs hl.1, ihrest hl.2]
  | case3 t a x cs tl rest hk ihrest =>
    intro hl
    simp only [cfL, Bool.and_eq_true] at hl
    simp only [pruneL, Bool.not_eq_true] at hk ⊢
    simp [hk, ihrest hl.2]
  | case4 n rest hne ihrest =>
    intro hl
    cases n with
    | elem t a x cs tl => exact absurd rfl (hne t a x cs tl)
    | comment c tl => simp [cfL] at hl

/-- Structural induction over a child list, with the inductive hypothesis
available for each node's own children. -/
theorem nodeListInd (Q : List Node → Prop) (hnil : Q [])
    (hcons : ∀ n l, Q (childrenOf n) → Q l → Q (n :: l)) : ∀ l, Q l := by
  have hP : ∀ n, Q (childrenOf n) := fun n =>
    @Node.rec (fun m => Q (childrenOf m)) Q
      (fun _ _ _ _ _ h => h)
      (fun _ _ => hnil)
      hnil
      (fun n l hn hl => hcons n l hn hl) n
  intro l
  induction l with
  | nil => exact hnil
  | cons n l ih => exact hcons n l (hP n) ih

theorem pclearRemL (p : String → List (String × String) → Bool) :
    ∀ l : List Node, pclear p (remL p l) = true := by
  refine nodeListInd _ (by simp [remL, pclear]) ?_
  intro n l hn hl
  simp only [childrenOf] at hn
  cases n with
  | elem t a x cs tl =>
    cases hp : p t a with
    | true => simpa [remL, hp] using hl
    | false => simp [remL, hp, pclear, hn, hl]
  | comment c tl => simpa [remL, pclear] using hl

theorem remLId (p : String → List (String × String) → Bool) :
    ∀ l : List Node, pclear p l = true → remL p l = l := by
  refine nodeListInd _ (fun _ => by simp [remL]) ?_
  intro n l hn hl hcl
  simp only [childrenOf] at hn
  cases n with
  | elem t a x cs tl =>
    simp only [pclear, Bool.and_eq_true, Bool.not_eq_true'] at hcl
    simp [remL, hcl.1.1, hn hcl.1.2, hl hcl.2]
  | comment c tl =>
    simp only [pclear] at hcl
    simp [remL, hl hcl]

theorem remLPclear (p q : String → List (String × String) → Bool) :
    ∀ l : List Node, pclear q l = true → pclear q (remL p l) = true := by
  refine nodeListInd _ (fun _ => by simp [remL, pclear]) ?_
  intro n l hn hl hcl
  simp only [childrenOf] at hn
  cases n with
  | elem t a x cs tl =>
    simp only [pclear, Bool.and_eq_true, Bool.not_eq_true'] at hcl
    cases hp : p t a with
    | true => simp only [remL, hp, if_pos]; exact hl hcl.2
    | false => simp [remL, hp, pclear, hcl.1.1, hn hcl.1.2, hl hcl.2]
  | comment c tl =>
    simp only [pclear] at hcl
    simpa [remL, pclear] using hl hcl

theorem remLPfix (p : String → List (String × String) → Bool) :
    ∀ l : List Node, pfixL l = true → pfixL (remL p l) = true := by
  refine nodeListInd _ (fun _ => by simp [remL, pfixL]) ?_
  intro n l hn hl hcl
  simp only [childrenOf] at hn
  cases n with
  | elem t a x cs tl =>
    simp only [pfixL, Bool.and_eq_true] at hcl
    cases hp : p t a with
    | true => simp only [remL, hp, if_pos]; exact hl hcl.2
    | false => simp [remL, hp, pfixL, hcl.1.1.1, hcl.1.1.2, hn hcl.1.2, hl hcl.2]
  | comment c tl =>
    simp only [pfixL] at hcl
    simpa [remL, pfixL] using hl hcl

theorem remLCf (p : String → List (String × String) → Bool) :
    ∀ l : List Node, cfL l = true → cfL (remL p l) = true := by
  refine nodeListInd _ (fun _ => by simp [remL, cfL]) ?_
  intro n l hn hl hcl
  simp only [childrenOf] at hn
  cases n with
  | elem t a x cs tl =>
    simp only [cfL, Bool.and_eq_true] at hcl
    cases hp : p t a with
    | true => simp only [remL, hp, if_pos]; exact hl hcl.2
    | false => simp [remL, hp, cfL, hn hcl.1, hl hcl.2]
  | comment c tl => simp [cfL] at hcl

theorem keepNotDefs {t : String} (h : keepTag t = true)
    (a : List (String × String)) : defsP t a = false := by
  by_cases ht : t = "defs"
  · rw [ht] at h
    simp [keepTag, qnNamespace] at h
  · simpa [defsP] using ht

theorem pfixPclearDefs : ∀ l : List Node, pfixL l = true → pclear defsP l = true := by
  intro l
  induction l using pruneL.induct with
  | case1 => intro _; simp [pclear]
  | case2 t a x cs tl rest hk ihcs ihrest =>
    intro hl
    simp only [pfixL, Bool.and_eq_true] at hl
    simp [pclear, keepNotDefs hl.1.1.1 a, ihcs hl.1.2, ihrest hl.2]
  | case3 t a x cs tl rest hk ihrest =>
    intro hl
    simp only [pfixL, Bool.and_eq_true] at hl
    exact absurd hl.1.1.1 hk
  | case4 n rest hne ihrest =>
    intro hl
    cases n with
    | elem t a x cs tl => exact absurd rfl (hne t a x cs tl)
    | comment c tl =>
      simp only [pfixL] at hl
      simpa [pclear] using ihrest hl

/-! ## Lemmas for the absorption step -/

theorem elemsOfDelT {cs : List Node} {tg : String} {ag : List (String × String)}
    {xg : String} {cg : List Node} {tlg : String}
    (h : elemsOf cs = [Node.elem tg ag xg cg tlg]) :
    elemsOf (delTransformElems cs) =
      [Node.elem tg (attrDel ag "transform") xg cg tlg] := by
  induction cs with
  | nil => simp [elemsOf] at h
  | cons n cs' ih =>
    cases n with
    | elem t a x c tl =>
      simp only [elemsOf, List.filter_cons, isElemB] at h ⊢
      simp only [if_pos] at h
      have h1 : Node.elem t a x c tl = Node.elem tg ag xg cg tlg ∧
          List.filter isElemB cs' = [] := by
        exact ⟨(List.cons_eq_cons.1 h).1, (List.cons_eq_cons.1 h).2⟩
      obtain ⟨he, hrest⟩ := h1
      injection he with e1 e2 e3 e4 e5
      subst e1; subst e2; subst e3; subst e4; subst e5
      simp [delTransformElems, elemsOf, List.filter_cons, isElemB, hrest]
    | comment c tl =>
      simp only [elemsOf, List.filter_cons, isElemB] at h ⊢
      simp only [Bool.false_eq_true, if_neg, if_false] at h
      have := ih (by simpa [elemsOf] using h)
      simpa [delTransformElems, elemsOf] using this

theorem pfixDelT {l : List Node} (h : pfixL l = true) :
    pfixL (delTransformElems l) = true := by
  induction l with
  | nil => simpa [delTransformElems] using h
  | cons n rest ih =>
    cases n with
    | elem t a x cs tl =>
      simp only [pfixL, Bool.and_eq_true] at h
      simp [delTransformElems, pfixL, h.1.1.1, attrsGoodDel h.1.1.2 _, h.1.2, h.2]
    | comment c tl =>
      simp only [pfixL] at h
      simpa [delTransformElems, pfixL] using ih h

theorem cfDelT {l : List Node} (h : cfL l = true) :
    cfL (delTransformElems l) = true := by
  induction l with
  | nil => simpa [delTransformElems] using h
  | cons n rest ih =>
    cases n with
    | elem t a x cs tl =>
      simp only [cfL, Bool.and_eq_true] at h
      simp [delTransformElems, cfL, h.1, h.2]
    | comment c tl => simp [cfL] at h

theorem pclearDelT {p : String → List (String × String) → Bool}
    (hp : ∀ t a, p t (attrDel a "transform") = p t a)
    {l : List Node} (h : pclear p l = true) :
    pclear p (delTransformElems l) = true := by
  induction l with
  | nil => simpa [delTransformElems] using h
  | cons n rest ih =>
    cases n with
    | elem t a x cs tl =>
      simp only [pclear, Bool.and_eq_true, Bool.not_eq_true'] at h
      simp [delTransformElems, pclear, hp t a, h.1.1, h.1.2, h.2]
    | comment c tl =>
      simp only [pclear] at h
      simpa [delTransformElems, pclear] using ih h

theorem grayPDelT (ln key : String) (hkey : key ≠ "transform") :
    ∀ (t : String) (a : List (String × String)),
      grayP ln key t (attrDel a "transform") = grayP ln key t a := by
  intro t a
  unfold grayP
  rw [attrGetDelOther a hkey]

theorem defsPDelT :
    ∀ (t : String) (a : List (String × String)),
      defsP t (attrDel a "transform") = defsP t a := by
  intro t a
  rfl

/-! ## Sizing: result characterization and self-stability -/

theorem vbDerivedTruthy (fw fh : PyF) : truthy (some (vbDerived fw fh)) = true := by
  simp [truthy, vbDerived]

theorem vbShiftedTruthy (mx my vw vh tx ty : PyF) :
    truthy (some (vbShifted mx my vw vh tx ty)) = true := by
  simp only [truthy, vbShifted]
  rw [isEmptyAppendCons]
  rfl

theorem goodEntryViewBox (v : String) : goodEntry ("viewBox", v) = true := by
  rfl

theorem sizingOk {t : String} {a : List (String × String)} {x : String}
    {cs : List Node} {tl : String} {n' : Node}
    (h : sizing (Node.elem t a x cs tl) = .ok n') :
    ∃ a', n' = Node.elem t a' x cs tl ∧
      truthy (attrGet a' "viewBox") = true ∧
      (truthy (attrGet a' "width") && truthy (attrGet a' "height")) = false ∧
      (attrsGood a = true → attrsGood a' = true) ∧
      sizing n' = .ok n' := by
  cases hw : truthy (attrGet a "width") <;> cases hh : truthy (attrGet a "height") <;>
    cases hvb : truthy (attrGet a "viewBox")
  case false.false.false | false.true.false | true.false.false =>
    simp [sizing, hw, hh, hvb] at h
  case false.false.true | false.true.true | true.false.true =>
    simp only [sizing, hw, hh, hvb] at h
    simp at h
    refine ⟨a, h.symm, hvb, by simp [hw, hh], fun hg => hg, ?_⟩
    rw [← h]
    simp [sizing, hw, hh, hvb]
  case true.true.false =>
    simp only [sizing, hw, hh, hvb] at h
    rcases hf1 : pyFloat ((attrGet a "width").getD "") with _ | fw <;>
      rcases hf2 : pyFloat ((attrGet a "height").getD "") with _ | fh <;>
      simp only [hf1, hf2] at h <;> simp at h
    refine ⟨_, h.symm, ?_, ?_, ?_, ?_⟩
    · rw [attrGetDelOther _ (by simp), attrGetDelOther _ (by simp), attrGetSetSelf]
      exact vbDerivedTruthy fw fh
    · rw [attrGetDelOther _ (by simp), attrGetDelSelf]
      simp [truthy]
    · intro hg
      exact attrsGoodDel (attrsGoodDel (attrsGoodSet hg (goodEntryViewBox _)) _) _
    · rw [← h]
      have e1 : attrGet (attrDel (attrDel (attrSet a "viewBox" (vbDerived fw fh)) "width") "height") "width" = none := by
        rw [attrGetDelOther _ (by simp), attrGetDelSelf]
      have e2 : attrGet (attrDel (attrDel (attrSet a "viewBox" (vbDerived fw fh)) "width") "height") "viewBox" = some (vbDerived fw fh) := by
        rw [attrGetDelOther _ (by simp), attrGetDelOther _ (by simp), attrGetSetSelf]
      simp only [vbDerived] at e1 e2
      simp [sizing, truthy, vbDerived, e1, e2]
  case true.true.true =>
    simp only [sizing, hw, hh, hvb] at h
    simp at h
    refine ⟨_, h.symm, ?_, ?_, ?_, ?_⟩
    · rw [attrGetDelOther _ (by simp), attrGetDelOther _ (by simp)]
      exact hvb
    · rw [attrGetDelOther _ (by simp), attrGetDelSelf]
      simp [truthy]
    · intro hg
      exact attrsGoodDel (attrsGoodDel hg _) _
    · rw [← h]
      have e1 : attrGet (attrDel (attrDel a "width") "height") "width" = none := by
        rw [attrGetDelOther _ (by simp), attrGetDelSelf]
      have e2 : attrGet (attrDel (attrDel a "width") "height") "viewBox" = attrGet a "viewBox" := by
        rw [attrGetDelOther _ (by simp), attrGetDelOther _ (by simp)]
      have hvb' : (match attrGet a "viewBox" with
          | none => false
          | some s => !s.data.isEmpty) = true := by simpa [truthy] using hvb
      simp [sizing, truthy, e1, e2, hvb']

theorem sizingComment (c tl : String) :
    sizing (Node.comment c tl) = .ok (Node.comment c tl) := rfl

theorem translateMatchEmpty : translateMatch "" = none := rfl

/-- Characterization of a successful absorption step: the output root keeps
tag/text/children-tail structure, the step is self-stable, and it preserves
every invariant the pipeline has established. -/
theorem absorbOk {t : String} {a : List (String × String)} {x : String}
    {cs : List Node} {tl : String} {u : Node}
    (h : absorb (Node.elem t a x cs tl) = .ok u) :
    ∃ a2 cs2, u = Node.elem t a2 x cs2 tl ∧
      absorb u = .ok u ∧
      attrGet a2 "width" = attrGet a "width" ∧
      attrGet a2 "height" = attrGet a "height" ∧
      (truthy (attrGet a "viewBox") = true → truthy (attrGet a2 "viewBox") = true) ∧
      (attrsGood a = true → attrsGood a2 = true) ∧
      (pfixL cs = true → pfixL cs2 = true) ∧
      (cfL cs = true → cfL cs2 = true) ∧
      (pclear defsP cs = true → pclear defsP cs2 = true) ∧
      (∀ ln key, key ≠ "transform" →
        pclear (grayP ln key) cs = true → pclear (grayP ln key) cs2 = true) := by
  have base : absorb (Node.elem t a x cs tl) = .ok (Node.elem t a x cs tl) →
      ∃ a2 cs2, u = Node.elem t a2 x cs2 tl ∧
      absorb u = .ok u ∧
      attrGet a2 "width" = attrGet a "width" ∧
      attrGet a2 "height" = attrGet a "height" ∧
      (truthy (attrGet a "viewBox") = true → truthy (attrGet a2 "viewBox") = true) ∧
      (attrsGood a = true → attrsGood a2 = true) ∧
      (pfixL cs = true → pfixL cs2 = true) ∧
      (cfL cs = true → cfL cs2 = true) ∧
      (pclear defsP cs = true → pclear defsP cs2 = true) ∧
      (∀ ln key, key ≠ "transform" →
        pclear (grayP ln key) cs = true → pclear (grayP ln key) cs2 = true) := by
    intro habs
    rw [habs] at h
    simp only [AbsorbResult.ok.injEq] at h
    subst h
    exact ⟨a, cs, rfl, habs, rfl, rfl, fun hx => hx, fun hx => hx, fun hx => hx,
      fun hx => hx, fun hx => hx, fun _ _ _ hcl => hcl⟩
  cases hvb : truthy (attrGet a "viewBox") with
  | false => simpa [hvb] using base (by simp [absorb, hvb])
  | true =>
    rcases hel : elemsOf cs with _ | ⟨g, gtail⟩
    · simpa [hvb] using base (by simp [absorb, hvb, hel])
    · rcases gtail with _ | ⟨g2, gtail2⟩
      · have hgel : isElemB g = true := by
          have hmem : g ∈ elemsOf cs := by rw [hel]; exact .head _
          exact (List.mem_filter.1 hmem).2
        cases g with
        | comment gc gtl => simp [isElemB] at hgel
        | elem tg ag xg cg tlg =>
          cases hg : (qnLocal tg == "g") with
          | false => simpa [hvb] using base (by simp [absorb, hvb, hel, tagOf, hg])
          | true =>
            rcases hm : translateMatch ((attrGet ag "transform").getD "") with _ | ⟨s1, s2⟩
            · simpa [hvb] using base (by simp [absorb, hvb, hel, tagOf, attrsOf, hg, hm])
            · rcases hf1 : pyFloat s1 with _ | tx
              · simpa [hvb] using base (by simp [absorb, hvb, hel, tagOf, attrsOf, hg, hm, hf1])
              · rcases hf2 : pyFloat s2 with _ | ty
                · simpa [hvb] using base (by simp [absorb, hvb, hel, tagOf, attrsOf, hg, hm, hf1, hf2])
                · rcases hsw : splitWS ((attrGet a "viewBox").getD "").data with
                    _ | ⟨p1, _ | ⟨p2, _ | ⟨p3, _ | ⟨p4, _ | ⟨p5, pr⟩⟩⟩⟩⟩
                  · simpa [hvb] using base (by simp [absorb, hvb, hel, tagOf, attrsOf, hg, hm, hf1, hf2, hsw])
                  · simpa [hvb] using base (by simp [absorb, hvb, hel, tagOf, attrsOf, hg, hm, hf1, hf2, hsw])
                  · simpa [hvb] using base (by simp [absorb, hvb, hel, tagOf, attrsOf, hg, hm, hf1, hf2, hsw])
                  · simpa [hvb] using base (by simp [absorb, hvb, hel, tagOf, attrsOf, hg, hm, hf1, hf2, hsw])
                  · rcases hq1 : pyFloat ⟨p1⟩ with _ | mx
                    · simp [absorb, hvb, hel, tagOf, attrsOf, hg, hm, hf1, hf2, hsw, hq1] at h
                    · rcases hq2 : pyFloat ⟨p2⟩ with _ | my
                      · simp [absorb, hvb, hel, tagOf, attrsOf, hg, hm, hf1, hf2, hsw, hq1, hq2] at h
                      · rcases hq3 : pyFloat ⟨p3⟩ with _ | vw
                        · simp [absorb, hvb, hel, tagOf, attrsOf, hg, hm, hf1, hf2, hsw, hq1, hq2, hq3] at h
                        · rcases hq4 : pyFloat ⟨p4⟩ with _ | vh
                          · simp [absorb, hvb, hel, tagOf, attrsOf, hg, hm, hf1, hf2, hsw,
                              hq1, hq2, hq3, hq4] at h
                          · have hu : u = Node.elem t
                                (attrSet a "viewBox" (vbShifted mx my vw vh tx ty)) x
                                (delTransformElems cs) tl := by
                              have h' := h
                              simp only [absorb, hvb, Bool.not_true, Bool.false_eq_true,
                                if_false, hel, tagOf, attrsOf, hg, hm, hf1, hf2, hsw,
                                hq1, hq2, hq3, hq4] at h'
                              simp at h'
                              exact h'.symm
                            subst hu
                            refine ⟨attrSet a "viewBox" (vbShifted mx my vw vh tx ty),
                              delTransformElems cs, rfl, ?_,
                              attrGetSetOther a _ (by simp),
                              attrGetSetOther a _ (by simp),
                              fun _ => by rw [attrGetSetSelf]; exact vbShiftedTruthy mx my vw vh tx ty,
                              fun hgood => attrsGoodSet hgood (goodEntryViewBox _),
                              fun hp => pfixDelT hp,
                              fun hc => cfDelT hc,
                              fun hd => pclearDelT defsPDelT hd,
                              fun ln key hkey hcl => pclearDelT (grayPDelT ln key hkey) hcl⟩
                            have e2 : elemsOf (delTransformElems cs) =
                                [Node.elem tg (attrDel ag "transform") xg cg tlg] :=
                              elemsOfDelT hel
                            have eget : attrGet (attrSet a "viewBox"
                                (vbShifted mx my vw vh tx ty)) "viewBox" =
                                some (vbShifted mx my vw vh tx ty) := attrGetSetSelf a _ _
                            simp [absorb, eget, vbShiftedTruthy, e2, tagOf, attrsOf, hg,
                              attrGetDelSelf, translateMatchEmpty]
                  · simpa [hvb] using base
                      (by simp [absorb, hvb, hel, tagOf, attrsOf, hg, hm, hf1, hf2, hsw])
      · simpa [hvb] using base (by simp [absorb, hvb, hel])

/-! ## The pipeline: decomposition, invariants, and stability -/

theorem sizingStable {t : String} {a : List (String × String)} (x : String)
    (cs : List Node) (tl : String)
    (hvb : truthy (attrGet a "viewBox") = true)
    (hwh : (truthy (attrGet a "width") && truthy (attrGet a "height")) = false) :
    sizing (Node.elem t a x cs tl) = .ok (Node.elem t a x cs tl) := by
  cases hw : truthy (attrGet a "width") <;> cases hh : truthy (attrGet a "height")
  · simp [sizing, hw, hh, hvb]
  · simp [sizing, hw, hh, hvb]
  · simp [sizing, hw, hh, hvb]
  · rw [hw, hh] at hwh; simp at hwh

theorem cleanupSplit {n u : Node} {s : List Char}
    (h : cleanup_svg n = .ok u s) :
    ∃ t8, sizing (remRoot (grayP "path" "style") (remRoot (grayP "path" "stroke")
        (remRoot (grayP "g" "style") (remRoot (grayP "g" "stroke")
        (remRoot defsP (pruneRoot (scRoot n))))))) = .ok t8 ∧
      absorb t8 = .ok u ∧ s = serializeDoc u := by
  simp only [cleanup_svg] at h
  rcases hsz : sizing (remRoot (grayP "path" "style") (remRoot (grayP "path" "stroke")
      (remRoot (grayP "g" "style") (remRoot (grayP "g" "stroke")
      (remRoot defsP (pruneRoot (scRoot n))))))) with t8 | r
  · rw [hsz] at h
    have h2 : (match absorb t8 with
        | AbsorbResult.raised => CleanupResult.raised
        | AbsorbResult.ok t9 => CleanupResult.ok t9 (serializeDoc t9)) =
        CleanupResult.ok u s := h
    rcases habs : absorb t8 with u' | _
    · rw [habs] at h2
      have h3 : CleanupResult.ok u' (serializeDoc u') = CleanupResult.ok u s := h2
      simp only [CleanupResult.ok.injEq] at h3
      exact ⟨t8, rfl, by rw [habs, h3.1], (h3.1 ▸ h3.2).symm⟩
    · rw [habs] at h2
      have h3 : CleanupResult.raised = CleanupResult.ok u s := h2
      exact CleanupResult.noConfusion h3
  · rw [hsz] at h
    have h2 : CleanupResult.skipped r = CleanupResult.ok u s := h
    exact CleanupResult.noConfusion h2

theorem cleanupComment (c tl : String) :
    cleanup_svg (Node.comment c tl) =
      .ok (Node.comment c tl) (serializeDoc (Node.comment c tl)) := rfl

/-- Full characterization of a successful run on an element root: the
output root keeps the input's tag and tail, carries a truthy `viewBox`,
never both `width` and `height`, its subtree is at the pruning fixed point
and comment-free, its attributes are cleanup-stable whenever the root
passed the keep test, the bytes are the serialization, and the whole
pipeline is stable on the output. -/
theorem cleanupOkElem {t0 : String} {a0 : List (String × String)} {x0 : String}
    {cs0 : List Node} {tl0 : String} {u : Node} {s : List Char}
    (h : cleanup_svg (Node.elem t0 a0 x0 cs0 tl0) = .ok u s) :
    ∃ aU xU csU,
      u = Node.elem t0 aU xU csU tl0 ∧
      s = serializeDoc u ∧
      truthy (attrGet aU "viewBox") = true ∧
      (truthy (attrGet aU "width") && truthy (attrGet aU "height")) = false ∧
      pfixL csU = true ∧ cfL csU = true ∧
      (keepTag t0 = true → attrsGood aU = true) ∧
      cleanup_svg u = .ok u s := by
  obtain ⟨t8, hsz, habs, hs⟩ := cleanupSplit h
  rw [show scRoot (Node.elem t0 a0 x0 cs0 tl0) =
    Node.elem t0 a0 (mergeT x0 (scL cs0)).1 (mergeT x0 (scL cs0)).2 tl0 from rfl] at hsz
  have hcf1 : cfL (mergeT x0 (scL cs0)).2 = true := cfLMergeT (wcfScL cs0)
  have hprE : pruneRoot (Node.elem t0 a0 (mergeT x0 (scL cs0)).1
      (mergeT x0 (scL cs0)).2 tl0) =
      Node.elem t0 (if keepTag t0 = true then cleanAttrs a0 else a0)
        (mergeT x0 (scL cs0)).1 (pruneL (mergeT x0 (scL cs0)).2) tl0 := by
    by_cases hk : keepTag t0 <;> simp [pruneRoot, hk]
  rw [hprE] at hsz
  set X1 := (mergeT x0 (scL cs0)).1 with hX1def
  set A2 := if keepTag t0 = true then cleanAttrs a0 else a0 with hA2def
  set C2 := pruneL (mergeT x0 (scL cs0)).2 with hC2def
  have h2pf : pfixL C2 = true := hC2def ▸ pfixPruneL (mergeT x0 (scL cs0)).2
  have h2cf : cfL C2 = true := hC2def ▸ cfPruneL (mergeT x0 (scL cs0)).2 hcf1
  have h2good : keepTag t0 = true → attrsGood A2 = true := fun hk => by
    rw [hA2def]; simp [hk, cleanAttrsGood]
  have h2defs : pclear defsP C2 = true := pfixPclearDefs C2 h2pf
  rw [show remRoot defsP (Node.elem t0 A2 X1 C2 tl0) = Node.elem t0 A2 X1 C2 tl0 from by
    rw [show remRoot defsP (Node.elem t0 A2 X1 C2 tl0) =
      Node.elem t0 A2 X1 (remL defsP C2) tl0 from rfl, remLId defsP C2 h2defs]] at hsz
  rw [show remRoot (grayP "g" "stroke") (Node.elem t0 A2 X1 C2 tl0) =
    Node.elem t0 A2 X1 (remL (grayP "g" "stroke") C2) tl0 from rfl] at hsz
  set D1 := remL (grayP "g" "stroke") C2 with hD1def
  rw [show remRoot (grayP "g" "style") (Node.elem t0 A2 X1 D1 tl0) =
    Node.elem t0 A2 X1 (remL (grayP "g" "style") D1) tl0 from rfl] at hsz
  set D2 := remL (grayP "g" "style") D1 with hD2def
  rw [show remRoot (grayP "path" "stroke") (Node.elem t0 A2 X1 D2 tl0) =
    Node.elem t0 A2 X1 (remL (grayP "path" "stroke") D2) tl0 from rfl] at hsz
  set D3 := remL (grayP "path" "stroke") D2 with hD3def
  rw [show remRoot (grayP "path" "style") (Node.elem t0 A2 X1 D3 tl0) =
    Node.elem t0 A2 X1 (remL (grayP "path" "style") D3) tl0 from rfl] at hsz
  set D4 := remL (grayP "path" "style") D3 with hD4def
  have h4pf : pfixL D4 = true := by
    rw [hD4def, hD3def, hD2def, hD1def]
    exact remLPfix _ _ (remLPfix _ _ (remLPfix _ _ (remLPfix _ _ h2pf)))
  have h4cf : cfL D4 = true := by
    rw [hD4def, hD3def, hD2def, hD1def]
    exact remLCf _ _ (remLCf _ _ (remLCf _ _ (remLCf _ _ h2cf)))
  have h4defs : pclear defsP D4 = true := by
    rw [hD4def, hD3def, hD2def, hD1def]
    exact remLPclear _ _ _ (remLPclear _ _ _ (remLPclear _ _ _ (remLPclear _ _ _ h2defs)))
  have h4g1 : pclear (grayP "g" "stroke") D4 = true := by
    rw [hD4def, hD3def, hD2def, hD1def]
    exact remLPclear _ _ _ (remLPclear _ _ _ (remLPclear _ _ _ (pclearRemL _ C2)))
  have h4g2 : pclear (grayP "g" "style") D4 = true := by
    rw [hD4def, hD3def, hD2def]
    exact remLPclear _ _ _ (remLPclear _ _ _ (pclearRemL _ D1))
  have h4g3 : pclear (grayP "path" "stroke") D4 = true := by
    rw [hD4def, hD3def]
    exact remLPclear _ _ _ (pclearRemL _ D2)
  have h4g4 : pclear (grayP "path" "style") D4 = true := by
    rw [hD4def]
    exact pclearRemL _ D3
  obtain ⟨a3, ht8, hvb3, hwh3, hgood3, hsz8⟩ := sizingOk hsz
  subst ht8
  obtain ⟨aU, csU, huE, habsU, hwU, hhU, hvbUimp, hgoodUimp, hpfUimp, hcfUimp,
    hdefsUimp, hgrayUimp⟩ := absorbOk habs
  subst huE
  have hvbU : truthy (attrGet aU "viewBox") = true := hvbUimp hvb3
  have hwhU : (truthy (attrGet aU "width") && truthy (attrGet aU "height")) = false := by
    rw [hwU, hhU]; exact hwh3
  have hpfU : pfixL csU = true := hpfUimp h4pf
  have hcfU : cfL csU = true := hcfUimp h4cf
  have hgoodU : keepTag t0 = true → attrsGood aU = true :=
    fun hk => hgoodUimp (hgood3 (h2good hk))
  have hdefsU : pclear defsP csU = true := hdefsUimp h4defs
  have hg1U : pclear (grayP "g" "stroke") csU = true :=
    hgrayUimp "g" "stroke" (by simp) h4g1
  have hg2U : pclear (grayP "g" "style") csU = true :=
    hgrayUimp "g" "style" (by simp) h4g2
  have hg3U : pclear (grayP "path" "stroke") csU = true :=
    hgrayUimp "path" "stroke" (by simp) h4g3
  have hg4U : pclear (grayP "path" "style") csU = true :=
    hgrayUimp "path" "style" (by simp) h4g4
  refine ⟨aU, X1, csU, rfl, hs, hvbU, hwhU, hpfU, hcfU, hgoodU, ?_⟩
  have hscU : scRoot (Node.elem t0 aU X1 csU tl0) = Node.elem t0 aU X1 csU tl0 :=
    scRootId (by simp [cfTop, cfL, hcfU])
  have hprU : pruneRoot (Node.elem t0 aU X1 csU tl0) = Node.elem t0 aU X1 csU tl0 := by
    by_cases hk : keepTag t0
    · simp [pruneRoot, hk, cleanAttrsFix (hgoodU hk), pruneLId csU hpfU]
    · simp [pruneRoot, hk, pruneLId csU hpfU]
  have hdU : remRoot defsP (Node.elem t0 aU X1 csU tl0) = Node.elem t0 aU X1 csU tl0 := by
    rw [show remRoot defsP (Node.elem t0 aU X1 csU tl0) =
      Node.elem t0 aU X1 (remL defsP csU) tl0 from rfl, remLId defsP csU hdefsU]
  have hq1U : remRoot (grayP "g" "stroke") (Node.elem t0 aU X1 csU tl0) =
      Node.elem t0 aU X1 csU tl0 := by
    rw [show remRoot (grayP "g" "stroke") (Node.elem t0 aU X1 csU tl0) =
      Node.elem t0 aU X1 (remL (grayP "g" "stroke") csU) tl0 from rfl, remLId _ csU hg1U]
  have hq2U : remRoot (grayP "g" "style") (Node.elem t0 aU X1 csU tl0) =
      Node.elem t0 aU X1 csU tl0 := by
    rw [show remRoot (grayP "g" "style") (Node.elem t0 aU X1 csU tl0) =
      Node.elem t0 aU X1 (remL (grayP "g" "style") csU) tl0 from rfl, remLId _ csU hg2U]
  have hq3U : remRoot (grayP "path" "stroke") (Node.elem t0 aU X1 csU tl0) =
      Node.elem t0 aU X1 csU tl0 := by
    rw [show remRoot (grayP "path" "stroke") (Node.elem t0 aU X1 csU tl0) =
      Node.elem t0 aU X1 (remL (grayP "path" "stroke") csU) tl0 from rfl, remLId _ csU hg3U]
  have hq4U : remRoot (grayP "path" "style") (Node.elem t0 aU X1 csU tl0) =
      Node.elem t0 aU X1 csU tl0 := by
    rw [show remRoot (grayP "path" "style") (Node.elem t0 aU X1 csU tl0) =
      Node.elem t0 aU X1 (remL (grayP "path" "style") csU) tl0 from rfl, remLId _ csU hg4U]
  have hszU : sizing (Node.elem t0 aU X1 csU tl0) = .ok (Node.elem t0 aU X1 csU tl0) :=
    sizingStable X1 csU tl0 hvbU hwhU
  show cleanup_svg (Node.elem t0 aU X1 csU tl0) = .ok (Node.elem t0 aU X1 csU tl0) s
  simp only [cleanup_svg, hscU, hprU, hdU, hq1U, hq2U, hq3U, hq4U, hszU, habsU]
  rw [hs]

/-! ## Claim-level predicates and helpers -/

instance : Inhabited Node := ⟨Node.comment "" ""⟩

/-- No attribute name is namespace-qualified or editor-prefixed. -/
def attrNamesClean (a : List (String × String)) : Bool :=
  a.all (fun p => !badName p.1)

/-- Namespace closure below the root: every element is in the SVG namespace
(and not a defs container) and carries only clean attribute names. -/
def nsCleanL : List Node → Bool
  | [] => true
  | .elem t a _ cs _ :: rest =>
    keepTag t && attrNamesClean a && nsCleanL cs && nsCleanL rest
  | .comment _ _ :: rest => nsCleanL rest

/-- Is there, at any depth, a group element with no element children? -/
def hasEmptyGroupL : List Node → Bool
  | [] => false
  | .elem t _ _ cs _ :: rest =>
    ((qnLocal t == "g") && (elemsOf cs).isEmpty) || hasEmptyGroupL cs || hasEmptyGroupL rest
  | _ :: rest => hasEmptyGroupL rest

theorem attrsGoodNamesClean {a : List (String × String)}
    (h : attrsGood a = true) : attrNamesClean a = true := by
  simp only [attrsGood, attrNamesClean, List.all_eq_true] at h ⊢
  intro p hp
  have hg := h p hp
  simp only [goodEntry, Bool.and_eq_true] at hg
  simpa using hg.1

theorem pfixNsClean : ∀ l : List Node, pfixL l = true → nsCleanL l = true := by
  refine nodeListInd _ (fun _ => by simp [nsCleanL]) ?_
  intro n l hn hl hp
  simp only [childrenOf] at hn
  cases n with
  | elem t a x cs tl =>
    simp only [pfixL, Bool.and_eq_true] at hp
    simp [nsCleanL, hp.1.1.1, attrsGoodNamesClean hp.1.1.2, hn hp.1.2, hl hp.2]
  | comment c tl =>
    simp only [pfixL] at hp
    simpa [nsCleanL] using hl hp

theorem tkScRoot (t : String) (a : List (String × String)) (x : String)
    (cs : List Node) (tl : String) :
    tkN (scRoot (Node.elem t a x cs tl)) = tkN (Node.elem t a x cs tl) := by
  show tkN (Node.elem t a (mergeT x (scL cs)).1 (mergeT x (scL cs)).2 tl) = _
  simp only [tkN, tkL]
  have hm := tkMergeT x (scL cs)
  rw [tkScL] at hm
  calc (mergeT x (scL cs)).1.data ++ (tkL (mergeT x (scL cs)).2 ++ (tl.data ++ []))
      = ((mergeT x (scL cs)).1.data ++ tkL (mergeT x (scL cs)).2) ++ (tl.data ++ []) := by
        simp [List.append_assoc]
    _ = (x.data ++ tkL cs) ++ (tl.data ++ []) := by rw [hm]
    _ = x.data ++ (tkL cs ++ (tl.data ++ [])) := by simp [List.append_assoc]

/-! ## A fuel-indexed evaluator for concrete runs

The tree-recursive pipeline functions are compiled by well-founded
recursion, which the kernel cannot unfold.  For evaluating the pipeline on
the concrete documents of the claims, each of them gets a fuel-indexed twin
that recurses structurally on the fuel (so `rfl` computes it), together
with a soundness lemma: whenever the twin returns `some`, it agrees with
the original function.  The twins are used only through those lemmas. -/

def scLF : Nat → List Node → Option (List Node)
  | 0, _ => none
  | _ + 1, [] => some []
  | fuel + 1, .elem t a x cs tl :: rest =>
    match scLF fuel cs, scLF fuel rest with
    | some cs1, some rest1 =>
      some (.elem t a (mergeT x cs1).1 (mergeT x cs1).2 tl :: rest1)
    | _, _ => none
  | fuel + 1, n :: rest => (scLF fuel rest).map (fun r => n :: r)

def pruneLF : Nat → List Node → Option (List Node)
  | 0, _ => none
  | _ + 1, [] => some []
  | fuel + 1, .elem t a x cs tl :: rest =>
    if keepTag t then
      match pruneLF fuel cs, pruneLF fuel rest with
      | some cs1, some rest1 => some (.elem t (cleanAttrs a) x cs1 tl :: rest1)
      | _, _ => none
    else pruneLF fuel rest
  | fuel + 1, n :: rest => (pruneLF fuel rest).map (fun r => n :: r)

def remLF (p : String → List (String × String) → Bool) :
    Nat → List Node → Option (List Node)
  | 0, _ => none
  | _ + 1, [] => some []
  | fuel + 1, .elem t a x cs tl :: rest =>
    if p t a then remLF p fuel rest
    else
      match remLF p fuel cs, remLF p fuel rest with
      | some cs1, some rest1 => some (.elem t a x cs1 tl :: rest1)
      | _, _ => none
  | fuel + 1, n :: rest => (remLF p fuel rest).map (fun r => n :: r)

def serLF : Nat → List Node → Option (List Char)
  | 0, _ => none
  | _ + 1, [] => some []
  | fuel + 1, .elem t a x cs tl :: rest =>
    match serLF fuel cs, serLF fuel rest with
    | some inner0, some rest1 =>
      let nm := (qnLocal t).data
      let inner := escText x ++ inner0
      some ((if inner.isEmpty then '<' :: (nm ++ serAttrs a ++ "/>".data)
        else '<' :: (nm ++ serAttrs a ++ '>' :: (inner ++ '<' :: '/' :: (nm ++ ['>'])))) ++
        escText tl ++ rest1)
    | _, _ => none
  | fuel + 1, .comment c tl :: rest =>
    (serLF fuel rest).map
      (fun r => "<!--".data ++ c.data ++ "-->".data ++ escText tl ++ r)

def hasEGF : Nat → List Node → Option Bool
  | 0, _ => none
  | _ + 1, [] => some false
  | fuel + 1, .elem t _ _ cs _ :: rest =>
    match hasEGF fuel cs, hasEGF fuel rest with
    | some b1, some b2 =>
      some (((qnLocal t == "g") && (elemsOf cs).isEmpty) || b1 || b2)
    | _, _ => none
  | fuel + 1, _ :: rest => hasEGF fuel rest

theorem scLF_eq : ∀ (fuel : Nat) (l r : List Node),
    scLF fuel l = some r → scL l = r := by
  intro fuel
  induction fuel with
  | zero => intro l r h; simp [scLF] at h
  | succ fuel ih =>
    intro l r h
    match l with
    | [] =>
      simp only [scLF, Option.some.injEq] at h
      simp [scL, ← h]
    | .elem t a x cs tl :: rest =>
      have h' : (match scLF fuel cs, scLF fuel rest with
          | some cs1, some rest1 =>
            some (Node.elem t a (mergeT x cs1).1 (mergeT x cs1).2 tl :: rest1)
          | _, _ => none) = some r := h
      rcases hcs : scLF fuel cs with _ | cs1 <;> rw [hcs] at h'
      · exact Option.noConfusion h'
      rcases hrest : scLF fuel rest with _ | rest1 <;> rw [hrest] at h'
      · exact Option.noConfusion h'
      have h2 : some (Node.elem t a (mergeT x cs1).1 (mergeT x cs1).2 tl :: rest1) =
          some r := h'
      rw [scLElemCons, ih cs cs1 hcs, ih rest rest1 hrest]
      exact Option.some.inj h2
    | .comment c tl :: rest =>
      have h' : (scLF fuel rest).map (fun r => Node.comment c tl :: r) = some r := h
      rcases hrest : scLF fuel rest with _ | rest1 <;> rw [hrest] at h'
      · exact Option.noConfusion h'
      have h2 : some (Node.comment c tl :: rest1) = some r := h'
      rw [scLCommentCons, ih rest rest1 hrest]
      exact Option.some.inj h2

theorem pruneLF_eq : ∀ (fuel : Nat) (l r : List Node),
    pruneLF fuel l = some r → pruneL l = r := by
  intro fuel
  induction fuel with
  | zero => intro l r h; simp [pruneLF] at h
  | succ fuel ih =>
    intro l r h
    match l with
    | [] =>
      simp only [pruneLF, Option.some.injEq] at h
      simp [pruneL, ← h]
    | .elem t a x cs tl :: rest =>
      by_cases hk : keepTag t
      · rw [show pruneLF (fuel + 1) (.elem t a x cs tl :: rest) =
          (match pruneLF fuel cs, pruneLF fuel rest with
           | some cs1, some rest1 => some (.elem t (cleanAttrs a) x cs1 tl :: rest1)
           | _, _ => none) from by simp [pruneLF, hk]] at h
        rcases hcs : pruneLF fuel cs with _ | cs1 <;> rw [hcs] at h
        · exact Option.noConfusion h
        rcases hrest : pruneLF fuel rest with _ | rest1 <;> rw [hrest] at h
        · exact Option.noConfusion h
        have h2 : some (Node.elem t (cleanAttrs a) x cs1 tl :: rest1) = some r := h
        rw [show pruneL (.elem t a x cs tl :: rest) =
          .elem t (cleanAttrs a) x (pruneL cs) tl :: pruneL rest from by simp [pruneL, hk]]
        rw [ih cs cs1 hcs, ih rest rest1 hrest]
        exact Option.some.inj h2
      · rw [show pruneLF (fuel + 1) (.elem t a x cs tl :: rest) = pruneLF fuel rest
          from by simp [pruneLF, hk]] at h
        rw [show pruneL (.elem t a x cs tl :: rest) = pruneL rest from by
          simp [pruneL, hk]]
        exact ih rest r h
    | .comment c tl :: rest =>
      rcases hrest : pruneLF fuel rest with _ | rest1 <;>
        rw [show pruneLF (fuel + 1) (.comment c tl :: rest) =
          (pruneLF fuel rest).map (fun r => Node.comment c tl :: r) from rfl, hrest] at h
      · exact Option.noConfusion h
      have h2 : some (Node.comment c tl :: rest1) = some r := h
      rw [show pruneL (.comment c tl :: rest) = Node.comment c tl :: pruneL rest from by
        simp [pruneL]]
      rw [ih rest rest1 hrest]
      exact Option.some.inj h2

theorem remLF_eq (p : String → List (String × String) → Bool) :
    ∀ (fuel : Nat) (l r : List Node), remLF p fuel l = some r → remL p l = r := by
  intro fuel
  induction fuel with
  | zero => intro l r h; simp [remLF] at h
  | succ fuel ih =>
    intro l r h
    match l with
    | [] =>
      simp only [remLF, Option.some.injEq] at h
      simp [remL, ← h]
    | .elem t a x cs tl :: rest =>
      by_cases hp : p t a
      · rw [show remLF p (fuel + 1) (.elem t a x cs tl :: rest) = remLF p fuel rest
          from by simp [remLF, hp]] at h
        rw [show remL p (.elem t a x cs tl :: rest) = remL p rest from by
          simp [remL, hp]]
        exact ih rest r h
      · rw [show remLF p (fuel + 1) (.elem t a x cs tl :: rest) =
          (match remLF p fuel cs, remLF p fuel rest with
           | some cs1, some rest1 => some (.elem t a x cs1 tl :: rest1)
           | _, _ => none) from by simp [remLF, hp]] at h
        rcases hcs : remLF p fuel cs with _ | cs1 <;> rw [hcs] at h
        · exact Option.noConfusion h
        rcases hrest : remLF p fuel rest with _ | rest1 <;> rw [hrest] at h
        · exact Option.noConfusion h
        have h2 : some (Node.elem t a x cs1 tl :: rest1) = some r := h
        rw [show remL p (.elem t a x cs tl :: rest) =
          .elem t a x (remL p cs) tl :: remL p rest from by simp [remL, hp]]
        rw [ih cs cs1 hcs, ih rest rest1 hrest]
        exact Option.some.inj h2
    | .comment c tl :: rest =>
      rcases hrest : remLF p fuel rest with _ | rest1 <;>
        rw [show remLF p (fuel + 1) (.comment c tl :: rest) =
          (remLF p fuel rest).map (fun r => Node.comment c tl :: r) from rfl, hrest] at h
      · exact Option.noConfusion h
      have h2 : some (Node.comment c tl :: rest1) = some r := h
      rw [show remL p (.comment c tl :: rest) = Node.comment c tl :: remL p rest from by
        simp [remL]]
      rw [ih rest rest1 hrest]
      exact Option.some.inj h2

theorem serLF_eq : ∀ (fuel : Nat) (l : List Node) (r : List Char),
    serLF fuel l = some r → serL l = r := by
  intro fuel
  induction fuel with
  | zero => intro l r h; simp [serLF] at h
  | succ fuel ih =>
    intro l r h
    match l with
    | [] =>
      simp only [serLF, Option.some.injEq] at h
      simp [serL, ← h]
    | .elem t a x cs tl :: rest =>
      rcases hcs : serLF fuel cs with _ | inner0 <;> rw [show serLF (fuel + 1)
          (.elem t a x cs tl :: rest) =
          (match serLF fuel cs, serLF fuel rest with
           | some inner0, some rest1 =>
             some ((if (escText x ++ inner0).isEmpty then
                 '<' :: ((qnLocal t).data ++ serAttrs a ++ "/>".data)
               else '<' :: ((qnLocal t).data ++ serAttrs a ++ '>' ::
                 ((escText x ++ inner0) ++ '<' :: '/' :: ((qnLocal t).data ++ ['>'])))) ++
               escText tl ++ rest1)
           | _, _ => none) from rfl, hcs] at h
      · exact Option.noConfusion h
      rcases hrest : serLF fuel rest with _ | rest1 <;> rw [hrest] at h
      · exact Option.noConfusion h
      have h2 : some ((if (escText x ++ inner0).isEmpty then
          '<' :: ((qnLocal t).data ++ serAttrs a ++ "/>".data)
        else '<' :: ((qnLocal t).data ++ serAttrs a ++ '>' ::
          ((escText x ++ inner0) ++ '<' :: '/' :: ((qnLocal t).data ++ ['>'])))) ++
          escText tl ++ rest1) = some r := h
      rw [show serL (.elem t a x cs tl :: rest) =
        (if (escText x ++ serL cs).isEmpty then
          '<' :: ((qnLocal t).data ++ serAttrs a ++ "/>".data)
        else '<' :: ((qnLocal t).data ++ serAttrs a ++ '>' ::
          ((escText x ++ serL cs) ++ '<' :: '/' :: ((qnLocal t).data ++ ['>'])))) ++
          escText tl ++ serL rest from by simp [serL]]
      rw [ih cs inner0 hcs, ih rest rest1 hrest]
      exact Option.some.inj h2
    | .comment c tl :: rest =>
      rcases hrest : serLF fuel rest with _ | rest1 <;>
        rw [show serLF (fuel + 1) (.comment c tl :: rest) =
          (serLF fuel rest).map
            (fun r => "<!--".data ++ c.data ++ "-->".data ++ escText tl ++ r)
          from rfl, hrest] at h
      · exact Option.noConfusion h
      have h2 : some ("<!--".data ++ c.data ++ "-->".data ++ escText tl ++ rest1) =
          some r := h
      rw [show serL (.comment c tl :: rest) =
        "<!--".data ++ c.data ++ "-->".data ++ escText tl ++ serL rest from by
          simp [serL]]
      rw [ih rest rest1 hrest]
      exact Option.some.inj h2

theorem hasEGF_eq : ∀ (fuel : Nat) (l : List Node) (r : Bool),
    hasEGF fuel l = some r → hasEmptyGroupL l = r := by
  intro fuel
  induction fuel with
  | zero => intro l r h; simp [hasEGF] at h
  | succ fuel ih =>
    intro l r h
    match l with
    | [] =>
      simp only [hasEGF, Option.some.injEq] at h
      simp [hasEmptyGroupL, ← h]
    | .elem t a x cs tl :: rest =>
      rcases hcs : hasEGF fuel cs with _ | b1 <;> rw [show hasEGF (fuel + 1)
          (.elem t a x cs tl :: rest) =
          (match hasEGF fuel cs, hasEGF fuel rest with
           | some b1, some b2 =>
             some (((qnLocal t == "g") && (elemsOf cs).isEmpty) || b1 || b2)
           | _, _ => none) from rfl, hcs] at h
      · exact Option.noConfusion h
      rcases hrest : hasEGF fuel rest with _ | b2 <;> rw [hrest] at h
      · exact Option.noConfusion h
      have h2 : some (((qnLocal t == "g") && (elemsOf cs).isEmpty) || b1 || b2) =
          some r := h
      rw [show hasEmptyGroupL (.elem t a x cs tl :: rest) =
        (((qnLocal t == "g") && (elemsOf cs).isEmpty) || hasEmptyGroupL cs ||
          hasEmptyGroupL rest) from by simp [hasEmptyGroupL]]
      rw [ih cs b1 hcs, ih rest b2 hrest]
      exact Option.some.inj h2
    | .comment c tl :: rest =>
      rw [show hasEGF (fuel + 1) (.comment c tl :: rest) = hasEGF fuel rest from rfl] at h
      rw [show hasEmptyGroupL (.comment c tl :: rest) = hasEmptyGroupL rest from by
        simp [hasEmptyGroupL]]
      exact ih rest r h

def scRootF (fuel : Nat) : Node → Option Node
  | .elem t a x cs tl =>
    (scLF fuel cs).map (fun cs1 => Node.elem t a (mergeT x cs1).1 (mergeT x cs1).2 tl)
  | n => some n

def pruneRootF (fuel : Nat) : Node → Option Node
  | .elem t a x cs tl =>
    (pruneLF fuel cs).map (fun cs1 =>
      if keepTag t then Node.elem t (cleanAttrs a) x cs1 tl else Node.elem t a x cs1 tl)
  | n => some n

def remRootF (p : String → List (String × String) → Bool) (fuel : Nat) :
    Node → Option Node
  | .elem t a x cs tl => (remLF p fuel cs).map (fun cs1 => Node.elem t a x cs1 tl)
  | n => some n

def serializeDocF (fuel : Nat) (n : Node) : Option (List Char) :=
  (serLF fuel [n]).map (fun b => xmlDeclChars ++ b)

theorem scRootF_eq {fuel : Nat} {n m : Node} (h : scRootF fuel n = some m) :
    scRoot n = m := by
  cases n with
  | comment c tl => exact Option.some.inj h
  | elem t a x cs tl =>
    rcases hcs : scLF fuel cs with _ | cs1 <;>
      rw [show scRootF fuel (Node.elem t a x cs tl) =
        (scLF fuel cs).map (fun cs1 =>
          Node.elem t a (mergeT x cs1).1 (mergeT x cs1).2 tl) from rfl, hcs] at h
    · exact Option.noConfusion h
    have h2 : some (Node.elem t a (mergeT x cs1).1 (mergeT x cs1).2 tl) = some m := h
    rw [show scRoot (Node.elem t a x cs tl) =
      Node.elem t a (mergeT x (scL cs)).1 (mergeT x (scL cs)).2 tl from rfl]
    rw [scLF_eq fuel cs cs1 hcs]
    exact Option.some.inj h2

theorem pruneRootF_eq {fuel : Nat} {n m : Node} (h : pruneRootF fuel n = some m) :
    pruneRoot n = m := by
  cases n with
  | comment c tl => exact Option.some.inj h
  | elem t a x cs tl =>
    rcases hcs : pruneLF fuel cs with _ | cs1 <;>
      rw [show pruneRootF fuel (Node.elem t a x cs tl) =
        (pruneLF fuel cs).map (fun cs1 =>
          if keepTag t then Node.elem t (cleanAttrs a) x cs1 tl
          else Node.elem t a x cs1 tl) from rfl, hcs] at h
    · exact Option.noConfusion h
    have h2 : some (if keepTag t then Node.elem t (cleanAttrs a) x cs1 tl
        else Node.elem t a x cs1 tl) = some m := h
    have hpl := pruneLF_eq fuel cs cs1 hcs
    by_cases hk : keepTag t
    · rw [show pruneRoot (Node.elem t a x cs tl) =
        Node.elem t (cleanAttrs a) x (pruneL cs) tl from by simp [pruneRoot, hk]]
      rw [hpl]
      rw [if_pos hk] at h2
      exact Option.some.inj h2
    · rw [show pruneRoot (Node.elem t a x cs tl) =
        Node.elem t a x (pruneL cs) tl from by simp [pruneRoot, hk]]
      rw [hpl]
      rw [if_neg hk] at h2
      exact Option.some.inj h2

theorem remRootF_eq {p : String → List (String × String) → Bool} {fuel : Nat}
    {n m : Node} (h : remRootF p fuel n = some m) : remRoot p n = m := by
  cases n with
  | comment c tl => exact Option.some.inj h
  | elem t a x cs tl =>
    rcases hcs : remLF p fuel cs with _ | cs1 <;>
      rw [show remRootF p fuel (Node.elem t a x cs tl) =
        (remLF p fuel cs).map (fun cs1 => Node.elem t a x cs1 tl) from rfl, hcs] at h
    · exact Option.noConfusion h
    have h2 : some (Node.elem t a x cs1 tl) = some m := h
    rw [show remRoot p (Node.elem t a x cs tl) =
      Node.elem t a x (remL p cs) tl from rfl]
    rw [remLF_eq p fuel cs cs1 hcs]
    exact Option.some.inj h2

theorem serializeDocF_eq {fuel : Nat} {n : Node} {b : List Char}
    (h : serializeDocF fuel n = some b) : serializeDoc n = b := by
  rcases hser : serLF fuel [n] with _ | b0 <;>
    rw [show serializeDocF fuel n = (serLF fuel [n]).map (fun b => xmlDeclChars ++ b)
      from rfl, hser] at h
  · exact Option.noConfusion h
  have h2 : some (xmlDeclChars ++ b0) = some b := h
  rw [show serializeDoc n = xmlDeclChars ++ serL [n] from rfl]
  rw [serLF_eq fuel [n] b0 hser]
  exact Option.some.inj h2

/-- The fuel-indexed twin of the whole pipeline. -/
def cleanup_svgF (fuel : Nat) (input : Node) : Option CleanupResult :=
  (scRootF fuel input).bind fun t1 =>
  (pruneRootF fuel t1).bind fun t2 =>
  (remRootF defsP fuel t2).bind fun t3 =>
  (remRootF (grayP "g" "stroke") fuel t3).bind fun t4 =>
  (remRootF (grayP "g" "style") fuel t4).bind fun t5 =>
  (remRootF (grayP "path" "stroke") fuel t5).bind fun t6 =>
  (remRootF (grayP "path" "style") fuel t6).bind fun t7 =>
  match sizing t7 with
  | .skip r => some (.skipped r)
  | .ok t8 =>
    match absorb t8 with
    | .raised => some .raised
    | .ok t9 => (serializeDocF fuel t9).map fun bytes => .ok t9 bytes

/-- Soundness of the fueled evaluator: whenever it returns a result, the
pipeline produces exactly that result. -/
theorem cleanup_svgF_eq (fuel : Nat) {n : Node} {r : CleanupResult}
    (h : cleanup_svgF fuel n = some r) : cleanup_svg n = r := by
  unfold cleanup_svgF at h
  simp only [Option.bind_eq_some] at h
  obtain ⟨t1, h1, t2, h2, t3, h3, t4, h4, t5, h5, t6, h6, t7, h7, h⟩ := h
  have e1 := scRootF_eq h1
  have e2 := pruneRootF_eq h2
  have e3 := remRootF_eq h3
  have e4 := remRootF_eq h4
  have e5 := remRootF_eq h5
  have e6 := remRootF_eq h6
  have e7 := remRootF_eq h7
  rcases h8 : sizing t7 with t8 | rr <;> rw [h8] at h
  · have h' : (match absorb t8 with
        | AbsorbResult.raised => some CleanupResult.raised
        | AbsorbResult.ok t9 =>
          (serializeDocF fuel t9).map fun bytes => CleanupResult.ok t9 bytes) =
        some r := h
    rcases h9 : absorb t8 with t9 | _ <;> rw [h9] at h'
    · have h'' : (serializeDocF fuel t9).map (fun bytes => CleanupResult.ok t9 bytes) =
          some r := h'
      rw [Option.map_eq_some'] at h''
      obtain ⟨bytes, h10, hb⟩ := h''
      obtain rfl : CleanupResult.ok t9 bytes = r := hb
      have e10 := serializeDocF_eq h10
      simp only [cleanup_svg]
      rw [e1, e2, e3, e4, e5, e6, e7, h8]
      show (match absorb t8 with
        | AbsorbResult.raised => CleanupResult.raised
        | AbsorbResult.ok t9 => CleanupResult.ok t9 (serializeDoc t9)) =
        CleanupResult.ok t9 bytes
      rw [h9]
      show CleanupResult.ok t9 (serializeDoc t9) = CleanupResult.ok t9 bytes
      rw [e10]
    · have hr : some CleanupResult.raised = some r := h'
      obtain rfl : CleanupResult.raised = r := Option.some.inj hr
      simp only [cleanup_svg]
      rw [e1, e2, e3, e4, e5, e6, e7, h8]
      show (match absorb t8 with
        | AbsorbResult.raised => CleanupResult.raised
        | AbsorbResult.ok t9 => CleanupResult.ok t9 (serializeDoc t9)) =
        CleanupResult.raised
      rw [h9]
  · have hr : some (CleanupResult.skipped rr) = some r := h
    obtain rfl : CleanupResult.skipped rr = r := Option.some.inj hr
    simp only [cleanup_svg]
    rw [e1, e2, e3, e4, e5, e6, e7, h8]

/-! ## Concrete documents for the claims -/

/-- Clark-notation tag in the SVG namespace. -/
def svgTag (ln : String) : String := "{http://www.w3.org/2000/svg}" ++ ln

def c1doc : Node :=
  .elem (svgTag "svg") [("viewBox", "0 0 10 10")] ""
    [.elem (svgTag "path") [("d", "M0 0")] "" [] ""] ""

def c1out : Node := c1doc

def c2doc : Node :=
  .elem (svgTag "svg") [("width", "10mm"), ("height", "10mm")] ""
    [.elem (svgTag "path") [] "" [] ""] ""

def c3doc : Node :=
  .elem (svgTag "svg") [("viewBox", "0 0 1 1")] ""
    [.elem (svgTag "g") [] "" [] ""] ""

def c3out : Node := c3doc

def c4doc : Node :=
  .elem (svgTag "svg") [("viewBox", "0 0 100 100")] ""
    [.elem (svgTag "g") [("transform", "translate(10,5)")] ""
      [.elem (svgTag "path") [("d", "M0 0")] "" [] ""] ""] ""

def c4out : Node :=
  .elem (svgTag "svg") [("viewBox", "-10.0 -5.0 100.0 100.0")] ""
    [.elem (svgTag "g") [] ""
      [.elem (svgTag "path") [("d", "M0 0")] "" [] ""] ""] ""

def c5doc : Node :=
  .elem (svgTag "svg") [("viewBox", "0 0 2 2")] ""
    [.elem (svgTag "path") [("d", "M1 1")] "" [] ""] ""

def c5out : Node := c5doc

def c6doc : Node :=
  .elem (svgTag "svg") [("width", "5"), ("viewBox", "0 0 1 1")] ""
    [.elem (svgTag "path") [] "" [] ""] ""

def c6out : Node := c6doc

def c6wdoc : Node :=
  .elem (svgTag "svg") [("viewBox", "0 0 3 3")] ""
    [.elem (svgTag "path") [] "" [] ""] ""

def c6wout : Node := c6wdoc

def c7doc : Node :=
  .elem (svgTag "svg") [("viewBox", "0 0 a b")] ""
    [.elem (svgTag "g") [("transform", "translate(1,2)")] ""
      [.elem (svgTag "path") [] "" [] ""] ""] ""

def c8doc : Node :=
  .elem "{http://example.com/x}svg" [("viewBox", "0 0 1 1"), ("{http://ns}a", "b")] ""
    [.elem (svgTag "path") [] "" [] ""] ""

def c8out : Node := c8doc

def c8wdoc : Node :=
  .elem (svgTag "svg") [("viewBox", "0 0 1 1"), ("-inkscape-foo", "x")] ""
    [.elem (svgTag "path") [] "" [] ""] ""

def c8wout : Node :=
  .elem (svgTag "svg") [("viewBox", "0 0 1 1")] ""
    [.elem (svgTag "path") [] "" [] ""] ""

def c9doc : Node :=
  .elem (svgTag "svg") [("viewBox", "0 0 1 1")] ""
    [.comment "a comment" "TAIL", .elem (svgTag "path") [] "" [] ""] ""

def c9out : Node :=
  .elem (svgTag "svg") [("viewBox", "0 0 1 1")] "TAIL"
    [.elem (svgTag "path") [] "" [] ""] ""

def c10doc : Node :=
  .elem "{http://example.com/x}defs" [("viewBox", "0 0 1 1")] ""
    [.elem (svgTag "path") [] "" [] ""] ""

def c10out : Node := c10doc
/-- The exact bytes each successful concrete run writes (verified below by
kernel evaluation of the fueled pipeline). -/
def c1bytes : List Char :=
  "<?xml version='1.0' encoding='UTF-8'?>\n<svg viewBox=\"0 0 10 10\"><path d=\"M0 0\"/></svg>".data

def c3bytes : List Char :=
  "<?xml version='1.0' encoding='UTF-8'?>\n<svg viewBox=\"0 0 1 1\"><g/></svg>".data

def c4bytes : List Char :=
  "<?xml version='1.0' encoding='UTF-8'?>\n<svg viewBox=\"-10.0 -5.0 100.0 100.0\"><g><path d=\"M0 0\"/></g></svg>".data

def c5bytes : List Char :=
  "<?xml version='1.0' encoding='UTF-8'?>\n<svg viewBox=\"0 0 2 2\"><path d=\"M1 1\"/></svg>".data

def c6bytes : List Char :=
  "<?xml version='1.0' encoding='UTF-8'?>\n<svg width=\"5\" viewBox=\"0 0 1 1\"><path/></svg>".data

def c6wbytes : List Char :=
  "<?xml version='1.0' encoding='UTF-8'?>\n<svg viewBox=\"0 0 3 3\"><path/></svg>".data

def c8bytes : List Char :=
  "<?xml version='1.0' encoding='UTF-8'?>\n<svg viewBox=\"0 0 1 1\" a=\"b\"><path/></svg>".data

def c8wbytes : List Char :=
  "<?xml version='1.0' encoding='UTF-8'?>\n<svg viewBox=\"0 0 1 1\"><path/></svg>".data

def c9bytes : List Char :=
  "<?xml version='1.0' encoding='UTF-8'?>\n<svg viewBox=\"0 0 1 1\">TAIL<path/></svg>".data

def c10bytes : List Char :=
  "<?xml version='1.0' encoding='UTF-8'?>\n<defs viewBox=\"0 0 1 1\"><path/></defs>".data

/-! ## The claims -/

/-- C1 (counterexample): the claim that the bytes written on success begin
with the literal characters `<svg` is false: on a minimal valid input the
written bytes do not start with `<svg` (the XML declaration comes first,
`xml_declaration=True`), so the Packer's strip-outer-wrapper assertion
`content.startswith("<svg ")` cannot hold on this output. -/
theorem C1_counterexample :
    cleanup_svg c1doc = .ok c1out c1bytes ∧
    hasPrefL "<svg".data c1bytes = false ∧
    hasPrefL "<?xml".data c1bytes = true :=
  ⟨cleanup_svgF_eq 64 rfl, rfl, rfl⟩

/-- C1 (amended): for every input on which normalization succeeds, the
bytes written to the output file begin with the exact XML declaration
`<?xml version='1.0' encoding='UTF-8'?>` and a newline — not with `<svg` —
followed by the serialized root element; the Packer's strip-outer-wrapper
step therefore does not apply directly to this output. -/
theorem C1_amended_xml_decl {n u : Node} {s : List Char}
    (h : cleanup_svg n = .ok u s) :
    hasPrefL xmlDeclChars s = true ∧ hasPrefL "<svg".data s = false := by
  obtain ⟨t8, _hsz, _habs, hs⟩ := cleanupSplit h
  subst hs
  exact ⟨hasPrefLSelf xmlDeclChars (serL [u]), rfl⟩

/-- C1 (witness): the amended statement instantiated on a concrete
successful run. -/
theorem C1_amended_xml_decl_witness :
    hasPrefL xmlDeclChars c1bytes = true ∧
    hasPrefL "<svg".data c1bytes = false :=
  C1_amended_xml_decl
    (cleanup_svgF_eq 64 rfl : cleanup_svg c1doc = .ok c1out c1bytes)

/-- C2 (code bug): on a document with `width="10mm"`, `height="10mm"` and
no `viewBox`, normalization does NOT derive a viewBox by stripping the unit
suffix — `float("10mm")` raises `ValueError`, which the code catches and
turns into the `UnparseableSize` skip, contradicting both the claim and the
code's own comment ("strip units like px, mm, etc."). -/
theorem C2_unit_width_skipped :
    cleanup_svg c2doc = .skipped .unparseableSize :=
  cleanup_svgF_eq 64 rfl

/-- C3 (counterexample): the claim that a successful output contains zero
group elements with no element children is false: the pipeline has no
orphan-group elimination pass, so an empty `<g/>` in the input survives
normalization. -/
theorem C3_counterexample :
    cleanup_svg c3doc = .ok c3out c3bytes ∧
    hasEmptyGroupL [c3out] = true :=
  ⟨cleanup_svgF_eq 64 rfl, hasEGF_eq 64 [c3out] true rfl⟩

/-- C3 (amended): the pipeline performs no orphan-group elimination: a
group element with no element children survives normalization unchanged
(here the output equals the input, empty group included). -/
theorem C3_amended_empty_group_survives :
    cleanup_svg c3doc = .ok c3out c3bytes ∧
    childrenOf c3out = [Node.elem (svgTag "g") [] "" [] ""] ∧
    elemsOf (childrenOf (Node.elem (svgTag "g") [] "" [] "")) = [] :=
  ⟨cleanup_svgF_eq 64 rfl, rfl, rfl⟩

/-- C4 (counterexample): for the transform-absorption scenario the output
viewBox is NOT the string `"-10 -5 100 100"` claimed by the spec — Python
`str(float)` formatting produces `"-10.0 -5.0 100.0 100.0"`. -/
theorem C4_counterexample :
    cleanup_svg c4doc = .ok c4out c4bytes ∧
    (attrGet (attrsOf c4out) "viewBox" == some "-10 -5 100 100") = false :=
  ⟨cleanup_svgF_eq 64 rfl, rfl⟩

/-- C4 (amended): with root `viewBox="0 0 100 100"` and a sole child group
carrying `transform="translate(10,5)"`, the output viewBox is exactly
`"-10.0 -5.0 100.0 100.0"` (origin shifted by `(-10, -5)`, width/height
unchanged, Python float formatting) and the child group has no `transform`
attribute. -/
theorem C4_amended_absorption :
    cleanup_svg c4doc = .ok c4out c4bytes ∧
    attrGet (attrsOf c4out) "viewBox" = some "-10.0 -5.0 100.0 100.0" ∧
    attrGet (attrsOf ((childrenOf c4out).headI)) "transform" = none :=
  ⟨cleanup_svgF_eq 64 rfl, rfl, rfl⟩

/-- C5 (confirmed): normalization is idempotent — for every document whose
normalization succeeds with output tree `u` and bytes `s`, running the full
pipeline on that output succeeds again and reproduces exactly the same
tree and the same bytes. -/
theorem C5_idempotent {n u : Node} {s : List Char}
    (h : cleanup_svg n = .ok u s) : cleanup_svg u = .ok u s := by
  cases n with
  | elem t0 a0 x0 cs0 tl0 =>
    obtain ⟨aU, xU, csU, _, _, _, _, _, _, _, hst⟩ := cleanupOkElem h
    exact hst
  | comment c tl =>
    rw [cleanupComment] at h
    simp only [CleanupResult.ok.injEq] at h
    rw [← h.1, ← h.2]
    exact cleanupComment c tl

/-- C5 (witness): idempotence instantiated on a concrete successful run. -/
theorem C5_idempotent_witness :
    cleanup_svg c5out = .ok c5out c5bytes :=
  C5_idempotent
    (cleanup_svgF_eq 64 rfl : cleanup_svg c5doc = .ok c5out c5bytes)

/-- C6 (counterexample): the claim that a successful output never carries a
viewBox together with any explicit width/height is false for inputs that
supply only one of width/height with a viewBox: the code deletes `width`
and `height` only when BOTH are present, so here `width="5"` survives next
to the viewBox. -/
theorem C6_counterexample :
    cleanup_svg c6doc = .ok c6out c6bytes ∧
    attrGet (attrsOf c6out) "viewBox" = some "0 0 1 1" ∧
    attrGet (attrsOf c6out) "width" = some "5" :=
  ⟨cleanup_svgF_eq 64 rfl, rfl, rfl⟩

/-- C6 (amended): every successful output has a truthy `viewBox`, and never
carries truthy `width` AND truthy `height` simultaneously; a single
width-or-height supplied together with a viewBox, however, survives. -/
theorem C6_amended_sizing {t : String} {a : List (String × String)} {x : String}
    {cs : List Node} {tl : String} {u : Node} {s : List Char}
    (h : cleanup_svg (Node.elem t a x cs tl) = .ok u s) :
    truthy (attrGet (attrsOf u) "viewBox") = true ∧
    (truthy (attrGet (attrsOf u) "width") && truthy (attrGet (attrsOf u) "height")) = false := by
  obtain ⟨aU, xU, csU, hu, _, hvb, hwh, _, _, _, _⟩ := cleanupOkElem h
  subst hu
  exact ⟨hvb, hwh⟩

/-- C6 (witness): the amended sizing invariant on a concrete run. -/
theorem C6_amended_sizing_witness :
    truthy (attrGet (attrsOf c6wout) "viewBox") = true ∧
    (truthy (attrGet (attrsOf c6wout) "width") && truthy (attrGet (attrsOf c6wout) "height")) = false :=
  C6_amended_sizing
    (cleanup_svgF_eq 64 rfl : cleanup_svg c6wdoc = .ok c6wout c6wbytes)

/-- C7 (code bug): normalization CAN raise on well-formed input — for a
root with `viewBox="0 0 a b"` and a sole translate-carrying group child,
the four `float(p)` calls on the viewBox parts are outside any `try`, so
`float("a")` raises an uncaught `ValueError` instead of a logged skip. -/
theorem C7_viewbox_parse_raises : cleanup_svg c7doc = .raised :=
  cleanup_svgF_eq 64 rfl

/-- C8 (counterexample): the namespace-closure claim fails for the root
element: the pruning loop skips any element without a parent, so a root in
a non-SVG namespace survives — and because it fails the keep test its
attributes are never cleaned either, so a namespaced attribute survives on
it. -/
theorem C8_counterexample :
    cleanup_svg c8doc = .ok c8out c8bytes ∧
    keepTag (tagOf c8out) = false ∧
    attrGet (attrsOf c8out) "{http://ns}a" = some "b" :=
  ⟨cleanup_svgF_eq 64 rfl, rfl, rfl⟩

/-- C8 (amended): namespace closure holds below the root: in every
successful output, every non-root element is in the SVG namespace, is not
a defs container, and carries only attribute names that are neither
namespace-qualified nor `-inkscape`-prefixed; the root's own attributes
are clean whenever the root itself passes the keep test. -/
theorem C8_amended_closure {t : String} {a : List (String × String)} {x : String}
    {cs : List Node} {tl : String} {u : Node} {s : List Char}
    (h : cleanup_svg (Node.elem t a x cs tl) = .ok u s) :
    nsCleanL (childrenOf u) = true ∧
    (keepTag (tagOf u) = true → attrNamesClean (attrsOf u) = true) := by
  obtain ⟨aU, xU, csU, hu, _, _, _, hpf, _, hgood, _⟩ := cleanupOkElem h
  subst hu
  exact ⟨pfixNsClean csU hpf, fun hk => attrsGoodNamesClean (hgood hk)⟩

/-- C8 (witness): the amended closure on a concrete run whose root is in
the SVG namespace and carried an `-inkscape` attribute on input. -/
theorem C8_amended_closure_witness :
    nsCleanL (childrenOf c8wout) = true ∧
    (keepTag (tagOf c8wout) = true → attrNamesClean (attrsOf c8wout) = true) :=
  C8_amended_closure
    (cleanup_svgF_eq 64 rfl : cleanup_svg c8wdoc = .ok c8wout c8wbytes)

/-- C9 (counterexample): the claim that a removed comment's tail text does
not survive is false: `strip_elements(..., with_tail=False)` keeps the tail
text in the tree, so the text trailing the comment is reattached (here to
the parent's `text`) and appears in the output. -/
theorem C9_counterexample :
    cleanup_svg c9doc = .ok c9out c9bytes ∧
    textOf c9out = "TAIL" :=
  ⟨cleanup_svgF_eq 64 rfl, rfl⟩

/-- C9 (amended): comment stripping removes every comment node from the
tree, and the tail text of removed comments IS kept (reattached to the
preceding sibling's tail or the parent's text): the total preserved text —
element text plus all tails, comment bodies excluded — is unchanged. -/
theorem C9_amended_strip (t : String) (a : List (String × String)) (x : String)
    (cs : List Node) (tl : String) :
    cfL (childrenOf (scRoot (Node.elem t a x cs tl))) = true ∧
    tkN (scRoot (Node.elem t a x cs tl)) = tkN (Node.elem t a x cs tl) :=
  ⟨cfScRoot t a x cs tl, tkScRoot t a x cs tl⟩

/-- C10 (confirmed): the root element is never removed by foreign-content
pruning (it has no parent, so the removal branch is skipped), even when its
namespace is not the SVG namespace or its local name is `defs`: every
successful run preserves the root's tag, and the run on such a document
still succeeds. -/
theorem C10_root_preserved {n u : Node} {s : List Char}
    (h : cleanup_svg n = .ok u s) :
    tagOf u = tagOf n ∧ isElemB u = isElemB n := by
  cases n with
  | elem t0 a0 x0 cs0 tl0 =>
    obtain ⟨aU, xU, csU, hu, _, _, _, _, _, _, _⟩ := cleanupOkElem h
    subst hu
    exact ⟨rfl, rfl⟩
  | comment c tl =>
    rw [cleanupComment] at h
    simp only [CleanupResult.ok.injEq] at h
    rw [← h.1]
    exact ⟨rfl, rfl⟩

/-- C10 (witness): a document whose root is a foreign-namespace `defs`
element normalizes successfully with its root intact. -/
theorem C10_root_preserved_witness :
    tagOf c10out = tagOf c10doc ∧ isElemB c10out = isElemB c10doc :=
  C10_root_preserved
    (cleanup_svgF_eq 64 rfl : cleanup_svg c10doc = .ok c10out c10bytes)

end Iso7000
